import Mathlib

/-!
# Calendar Synchronization Engine — verification development

Shallow embedding of the meal-planner calendar sync core
(`src/utils/eventParser.js`, `src/utils/recipeMatcher.js`,
`src/utils/syncEngine.js`, `src/hooks/useAutoSync.js`,
`src/utils/googleCalendar.js`) together with theorems settling the
specification claims about it.

Conventions:
* JS strings are modelled as `String` / `List Char`; only the ASCII fragment
  of the JS whitespace and word classes is modelled (all inputs appearing in
  the claims are ASCII).
* The Supabase datastore is modelled as an explicit record of tables; the
  migration files (002/003) show `meals` has no uniqueness constraint, and
  `unmatched_events.event_id` is UNIQUE, which the embedded store mirrors
  through the operations' behaviour.
* Fallible datastore / remote calls are modelled with explicit failure
  oracles indexed by the loop position of the call.
* Machine floats of the JS similarity arithmetic are modelled as `ℚ`
  (all scores are exact small-denominator rationals).
-/

namespace MealSync

/-! ## JS primitives: whitespace, trim -/

/-- The JS `\s` class restricted to ASCII: space, tab, newline, carriage
return, vertical tab, form feed (the Unicode space members are not needed
for any claim). -/
def jsWs (c : Char) : Bool :=
  c == ' ' || c == '\t' || c == '\n' || c == '\r' || c == '\x0b' || c == '\x0c'

/-- JS `String.prototype.trim`: strip whitespace from both ends. -/
def jsTrim (cs : List Char) : List Char :=
  ((cs.dropWhile jsWs).reverse.dropWhile jsWs).reverse

/-! ## Event Title Parser (`src/utils/eventParser.js`)

The source matches `^(\*\s*)?(Lunch|Dinner|Breakfast):\s*(.+)$` with the `i`
flag against the *trimmed* title.  In a JS regex without the `u` flag, a
pattern letter matches, case-insensitively, exactly its own lowercase and
uppercase ASCII forms; `$` anchors at the end of the input and `.` matches
any character except `'\n'`. -/

/-- Result of `parseEventTitle` (`mealType`, `recipeName`, `hasAsterisk`). -/
structure ParsedMeal where
  mealType : String
  recipeName : String
  hasAsterisk : Bool
deriving DecidableEq, Repr

/-- One pattern letter under the JS `i` flag: the subject character must be
the lowercase or the uppercase form of the pattern letter. -/
def ciCharMatch (p c : Char) : Bool :=
  c == p.toLower || c == p.toUpper

/-- Match the fixed word `pat` case-insensitively at the head of `cs`,
returning the matched characters (as they appear in the subject) and the
rest. -/
def ciStripWord : List Char → List Char → Option (List Char × List Char)
  | [], cs => some ([], cs)
  | _ :: _, [] => none
  | p :: ps, c :: cs =>
    if ciCharMatch p c then
      match ciStripWord ps cs with
      | some (tok, rest) => some (c :: tok, rest)
      | none => none
    else none

/-- The `(Lunch|Dinner|Breakfast)` alternation of the source regex, tried in
source order (the branches have pairwise distinct initial letters, so the
order cannot matter). -/
def stripMealType (cs : List Char) : Option (List Char × List Char) :=
  match ciStripWord "Lunch".toList cs with
  | some r => some r
  | none =>
    match ciStripWord "Dinner".toList cs with
    | some r => some r
    | none => ciStripWord "Breakfast".toList cs

/-- `mealType.charAt(0).toUpperCase() + mealType.slice(1).toLowerCase()`. -/
def normalizeMealType : List Char → String
  | [] => ""
  | c :: rest => String.mk (c.toUpper :: rest.map Char.toLower)

/-- `VALID_MEAL_TYPES` from the source. -/
def validMealTypes : List String := ["Lunch", "Dinner", "Breakfast"]

/-- The part of `parseEventTitle` after the trim and after the optional
emphasis group: meal-type alternation, `':'`, the `\s*(.+)$` tail, meal-type
normalization and membership check, recipe-name trim.

The regex tail `\s*(.+)$` matches the remainder `r` exactly when
`r.dropWhile jsWs` is nonempty and contains no `'\n'` (the greedy `\s*`
swallows the maximal whitespace prefix; `.` cannot cross a newline and `$`
only accepts the end of the input; backtracking `\s*` can only re-expose
whitespace, which never helps `.`+ reach past a later newline).  The trimmed
input ends in a non-whitespace character, which rules out the one situation
(an all-whitespace remainder) where backtracking would produce a match of
its own; `parse_eq_specRegexMatch_of_trimmed` below proves this reading
equivalent to a direct backtracking implementation of the regex. -/
def parseCore (marker : Bool) (cs1 : List Char) : Option ParsedMeal :=
  match stripMealType cs1 with
  | none => none
  | some (tok, rest) =>
    match rest with
    | [] => none
    | c :: r =>
      if c = ':' then
        let s := r.dropWhile jsWs
        if s.isEmpty || s.contains '\n' then none
        else
          let mt := normalizeMealType tok
          if validMealTypes.contains mt then
            some ⟨mt, String.mk (jsTrim s), marker⟩
          else none
      else none

/-- `parseEventTitle` from `eventParser.js`: falsy guard, trim of the title,
then the anchored regex with the optional `*`-with-trailing-whitespace
emphasis group handled first (the group cannot backtrack usefully: no
alternation branch starts with `'*'` or whitespace). -/
def parseEventTitle (eventTitle : String) : Option ParsedMeal :=
  if eventTitle = "" then none
  else
    match jsTrim eventTitle.toList with
    | [] => parseCore false []
    | c :: rest =>
      if c = '*' then parseCore true (rest.dropWhile jsWs)
      else parseCore false (c :: rest)

/-! ### The claim's regex, implemented independently

A direct backtracking matcher for
`^(\*\s*)?(Breakfast|Lunch|Dinner):\s*(.+)$` (flag `i`), used as the
specification-side artefact for the parser claim. -/

/-- All ways the fragment `\s*` can consume a prefix of `cs`, each entry the
remaining suffix, in greedy (longest-consumed-first) order. -/
def wsSplitsGreedy : List Char → List (List Char)
  | [] => [[]]
  | c :: cs => if jsWs c then wsSplitsGreedy cs ++ [c :: cs] else [c :: cs]

/-- Does `(.+)$` match the whole of `cs`? (`.` excludes `'\n'`, `$` is the
end of the input.) -/
def dotPlusEnd (cs : List Char) : Bool :=
  !cs.isEmpty && cs.all (fun c => c != '\n')

/-- The `(Breakfast|Lunch|Dinner)` alternation in the claim's order. -/
def specAltMealType (cs : List Char) : Option (List Char × List Char) :=
  match ciStripWord "Breakfast".toList cs with
  | some r => some r
  | none =>
    match ciStripWord "Lunch".toList cs with
    | some r => some r
    | none => ciStripWord "Dinner".toList cs

/-- Match `(Breakfast|Lunch|Dinner):\s*(.+)$` against `cs1`, building the
claim's result: meal type in title case, recipe name trimmed, the given
emphasis flag. -/
def specTailMatch (marker : Bool) (cs1 : List Char) : Option ParsedMeal :=
  match specAltMealType cs1 with
  | none => none
  | some (tok, rest) =>
    match rest with
    | [] => none
    | c :: r =>
      if c = ':' then
        match (wsSplitsGreedy r).find? dotPlusEnd with
        | some cap => some ⟨normalizeMealType tok, String.mk (jsTrim cap), marker⟩
        | none => none
      else none

/-- Backtracking match of the full claim pattern
`^(\*\s*)?(Breakfast|Lunch|Dinner):\s*(.+)$` (flag `i`) against `cs`:
the optional emphasis group is tried first (greedily), then skipped. -/
def specRegexMatch (cs : List Char) : Option ParsedMeal :=
  match cs with
  | [] => specTailMatch false []
  | c :: rest =>
    if c = '*' then
      match (wsSplitsGreedy rest).findSome? (specTailMatch true) with
      | some res => some res
      | none => specTailMatch false (c :: rest)
    else specTailMatch false (c :: rest)

/-! ### Parser lemmas -/

/-- `cs` has no trailing JS whitespace. -/
def noTrailWs (l : List Char) : Prop :=
  ∀ c ∈ l.getLast?, jsWs c = false

theorem noTrailWs_nil : noTrailWs [] := by
  intro c hc
  simp [List.getLast?] at hc

theorem noTrailWs_append_right {l₁ l₂ : List Char} (h : noTrailWs (l₁ ++ l₂))
    (h2 : l₂ ≠ []) : noTrailWs l₂ := by
  intro c hc
  exact h c (by rwa [List.getLast?_append_of_ne_nil _ h2])

theorem noTrailWs_cons {c : Char} {l : List Char} (h : noTrailWs (c :: l))
    (hl : l ≠ []) : noTrailWs l :=
  @noTrailWs_append_right [c] l h hl

theorem noTrailWs_dropWhile {p : Char → Bool} {l : List Char}
    (h : noTrailWs l) : noTrailWs (l.dropWhile p) := by
  obtain ⟨t, ht⟩ := (show l.dropWhile p <:+ l from List.dropWhile_suffix p)
  rcases eq_or_ne (l.dropWhile p) [] with h0 | h0
  · rw [h0]; exact noTrailWs_nil
  · exact noTrailWs_append_right (ht ▸ h) h0

theorem head?_dropWhile {p : Char → Bool} {l : List Char} {c : Char}
    (h : (l.dropWhile p).head? = some c) : p c = false := by
  induction l with
  | nil => simp [List.dropWhile] at h
  | cons a t ih =>
    by_cases hp : p a
    · rw [List.dropWhile_cons_of_pos hp] at h
      exact ih h
    · rw [List.dropWhile_cons_of_neg hp] at h
      simp at h
      subst h
      simpa using hp

theorem jsTrim_noTrail (l : List Char) : noTrailWs (jsTrim l) := by
  intro c hc
  unfold jsTrim at hc
  rw [List.getLast?_reverse] at hc
  exact head?_dropWhile hc

theorem dropWhile_ne_nil_of_noTrail {l : List Char} (h0 : l ≠ [])
    (h : noTrailWs l) : l.dropWhile jsWs ≠ [] := by
  induction l with
  | nil => exact absurd rfl h0
  | cons a t ih =>
    by_cases hp : jsWs a
    · rw [List.dropWhile_cons_of_pos hp]
      rcases eq_or_ne t [] with rfl | ht
      · exact absurd (h a (by simp [List.getLast?])) (by simp [hp])
      · exact ih ht (noTrailWs_cons h ht)
    · rw [List.dropWhile_cons_of_neg hp]
      simp

/-- Decomposition of a successful case-insensitive word match. -/
theorem ciStripWord_eq {pat cs tok rest : List Char}
    (h : ciStripWord pat cs = some (tok, rest)) :
    cs = tok ++ rest ∧ List.Forall₂ (fun p c => ciCharMatch p c = true) pat tok := by
  induction pat generalizing cs tok with
  | nil =>
    simp only [ciStripWord] at h
    cases h
    exact ⟨rfl, List.Forall₂.nil⟩
  | cons p ps ih =>
    cases cs with
    | nil => simp [ciStripWord] at h
    | cons c cs2 =>
      simp only [ciStripWord] at h
      by_cases hm : ciCharMatch p c
      · rw [if_pos hm] at h
        cases htail : ciStripWord ps cs2 with
        | none => rw [htail] at h; cases h
        | some pr =>
          obtain ⟨tok2, rest2⟩ := pr
          rw [htail] at h
          cases h
          obtain ⟨he, hf⟩ := ih htail
          exact ⟨by rw [he]; rfl, List.Forall₂.cons hm hf⟩
      · rw [if_neg hm] at h; cases h

theorem norm_of_lunch {tok : List Char}
    (h : List.Forall₂ (fun p c => ciCharMatch p c = true) "Lunch".toList tok) :
    normalizeMealType tok = "Lunch" := by
  have h : List.Forall₂ (fun p c => ciCharMatch p c = true)
      ['L', 'u', 'n', 'c', 'h'] tok := h
  obtain ⟨c0, u0, h0, hA, rfl⟩ := List.forall₂_cons_left_iff.mp h
  obtain ⟨c1, u1, h1, hB, rfl⟩ := List.forall₂_cons_left_iff.mp hA
  obtain ⟨c2, u2, h2, hC, rfl⟩ := List.forall₂_cons_left_iff.mp hB
  obtain ⟨c3, u3, h3, hD, rfl⟩ := List.forall₂_cons_left_iff.mp hC
  obtain ⟨c4, u4, h4, hE, rfl⟩ := List.forall₂_cons_left_iff.mp hD
  rw [List.forall₂_nil_left_iff] at hE
  subst hE
  simp only [ciCharMatch, Bool.or_eq_true, beq_iff_eq] at h0 h1 h2 h3 h4
  have e0 : c0.toUpper = 'L' := by rcases h0 with rfl | rfl <;> decide
  have e1 : c1.toLower = 'u' := by rcases h1 with rfl | rfl <;> decide
  have e2 : c2.toLower = 'n' := by rcases h2 with rfl | rfl <;> decide
  have e3 : c3.toLower = 'c' := by rcases h3 with rfl | rfl <;> decide
  have e4 : c4.toLower = 'h' := by rcases h4 with rfl | rfl <;> decide
  simp only [normalizeMealType, List.map, e0, e1, e2, e3, e4]

theorem norm_of_dinner {tok : List Char}
    (h : List.Forall₂ (fun p c => ciCharMatch p c = true) "Dinner".toList tok) :
    normalizeMealType tok = "Dinner" := by
  have h : List.Forall₂ (fun p c => ciCharMatch p c = true)
      ['D', 'i', 'n', 'n', 'e', 'r'] tok := h
  obtain ⟨c0, u0, h0, hA, rfl⟩ := List.forall₂_cons_left_iff.mp h
  obtain ⟨c1, u1, h1, hB, rfl⟩ := List.forall₂_cons_left_iff.mp hA
  obtain ⟨c2, u2, h2, hC, rfl⟩ := List.forall₂_cons_left_iff.mp hB
  obtain ⟨c3, u3, h3, hD, rfl⟩ := List.forall₂_cons_left_iff.mp hC
  obtain ⟨c4, u4, h4, hE, rfl⟩ := List.forall₂_cons_left_iff.mp hD
  obtain ⟨c5, u5, h5, hF, rfl⟩ := List.forall₂_cons_left_iff.mp hE
  rw [List.forall₂_nil_left_iff] at hF
  subst hF
  simp only [ciCharMatch, Bool.or_eq_true, beq_iff_eq] at h0 h1 h2 h3 h4 h5
  have e0 : c0.toUpper = 'D' := by rcases h0 with rfl | rfl <;> decide
  have e1 : c1.toLower = 'i' := by rcases h1 with rfl | rfl <;> decide
  have e2 : c2.toLower = 'n' := by rcases h2 with rfl | rfl <;> decide
  have e3 : c3.toLower = 'n' := by rcases h3 with rfl | rfl <;> decide
  have e4 : c4.toLower = 'e' := by rcases h4 with rfl | rfl <;> decide
  have e5 : c5.toLower = 'r' := by rcases h5 with rfl | rfl <;> decide
  simp only [normalizeMealType, List.map, e0, e1, e2, e3, e4, e5]

theorem norm_of_breakfast {tok : List Char}
    (h : List.Forall₂ (fun p c => ciCharMatch p c = true) "Breakfast".toList tok) :
    normalizeMealType tok = "Breakfast" := by
  have h : List.Forall₂ (fun p c => ciCharMatch p c = true)
      ['B', 'r', 'e', 'a', 'k', 'f', 'a', 's', 't'] tok := h
  obtain ⟨c0, u0, h0, hA, rfl⟩ := List.forall₂_cons_left_iff.mp h
  obtain ⟨c1, u1, h1, hB, rfl⟩ := List.forall₂_cons_left_iff.mp hA
  obtain ⟨c2, u2, h2, hC, rfl⟩ := List.forall₂_cons_left_iff.mp hB
  obtain ⟨c3, u3, h3, hD, rfl⟩ := List.forall₂_cons_left_iff.mp hC
  obtain ⟨c4, u4, h4, hE, rfl⟩ := List.forall₂_cons_left_iff.mp hD
  obtain ⟨c5, u5, h5, hF, rfl⟩ := List.forall₂_cons_left_iff.mp hE
  obtain ⟨c6, u6, h6, hG, rfl⟩ := List.forall₂_cons_left_iff.mp hF
  obtain ⟨c7, u7, h7, hH, rfl⟩ := List.forall₂_cons_left_iff.mp hG
  obtain ⟨c8, u8, h8, hI, rfl⟩ := List.forall₂_cons_left_iff.mp hH
  rw [List.forall₂_nil_left_iff] at hI
  subst hI
  simp only [ciCharMatch, Bool.or_eq_true, beq_iff_eq] at h0 h1 h2 h3 h4 h5 h6 h7 h8
  have e0 : c0.toUpper = 'B' := by rcases h0 with rfl | rfl <;> decide
  have e1 : c1.toLower = 'r' := by rcases h1 with rfl | rfl <;> decide
  have e2 : c2.toLower = 'e' := by rcases h2 with rfl | rfl <;> decide
  have e3 : c3.toLower = 'a' := by rcases h3 with rfl | rfl <;> decide
  have e4 : c4.toLower = 'k' := by rcases h4 with rfl | rfl <;> decide
  have e5 : c5.toLower = 'f' := by rcases h5 with rfl | rfl <;> decide
  have e6 : c6.toLower = 'a' := by rcases h6 with rfl | rfl <;> decide
  have e7 : c7.toLower = 's' := by rcases h7 with rfl | rfl <;> decide
  have e8 : c8.toLower = 't' := by rcases h8 with rfl | rfl <;> decide
  simp only [normalizeMealType, List.map, e0, e1, e2, e3, e4, e5, e6, e7, e8]

theorem ciStripWord_cons_neg {p c : Char} {ps cs : List Char}
    (h : ciCharMatch p c = false) : ciStripWord (p :: ps) (c :: cs) = none := by
  simp [ciStripWord, h]

theorem ciStripWord_head {p : Char} {ps cs tok rest : List Char}
    (h : ciStripWord (p :: ps) cs = some (tok, rest)) :
    ∃ c cs2, cs = c :: cs2 ∧ ciCharMatch p c = true := by
  obtain ⟨he, hf⟩ := ciStripWord_eq h
  obtain ⟨c, u, hc, _, rfl⟩ := List.forall₂_cons_left_iff.mp hf
  exact ⟨c, u ++ rest, by rw [he]; rfl, hc⟩

theorem not_lunch_breakfast {cs : List Char} {x y : List Char × List Char}
    (hl : ciStripWord "Lunch".toList cs = some x)
    (hb : ciStripWord "Breakfast".toList cs = some y) : False := by
  have hl2 : ciStripWord ('L' :: "unch".toList) cs = some x := hl
  have hb2 : ciStripWord ('B' :: "reakfast".toList) cs = some y := hb
  obtain ⟨c, cs2, rfl, hc1⟩ := ciStripWord_head hl2
  obtain ⟨c2, cs3, he, hc2⟩ := ciStripWord_head hb2
  obtain ⟨rfl, -⟩ : c2 = c ∧ cs3 = cs2 := by
    constructor <;> [exact (List.cons.injEq _ _ _ _ ▸ he).1.symm;
      exact (List.cons.injEq _ _ _ _ ▸ he).2.symm]
  simp only [ciCharMatch, Bool.or_eq_true, beq_iff_eq] at hc1 hc2
  rcases hc1 with rfl | rfl <;> rcases hc2 with h | h <;> exact absurd h (by decide)

theorem not_dinner_breakfast {cs : List Char} {x y : List Char × List Char}
    (hd : ciStripWord "Dinner".toList cs = some x)
    (hb : ciStripWord "Breakfast".toList cs = some y) : False := by
  have hd2 : ciStripWord ('D' :: "inner".toList) cs = some x := hd
  have hb2 : ciStripWord ('B' :: "reakfast".toList) cs = some y := hb
  obtain ⟨c, cs2, rfl, hc1⟩ := ciStripWord_head hd2
  obtain ⟨c2, cs3, he, hc2⟩ := ciStripWord_head hb2
  obtain ⟨rfl, -⟩ : c2 = c ∧ cs3 = cs2 := by
    constructor <;> [exact (List.cons.injEq _ _ _ _ ▸ he).1.symm;
      exact (List.cons.injEq _ _ _ _ ▸ he).2.symm]
  simp only [ciCharMatch, Bool.or_eq_true, beq_iff_eq] at hc1 hc2
  rcases hc1 with rfl | rfl <;> rcases hc2 with h | h <;> exact absurd h (by decide)

/-- The two alternation orders (source vs claim) agree: the branches have
pairwise incompatible first letters. -/
theorem specAlt_eq_strip (cs : List Char) : specAltMealType cs = stripMealType cs := by
  unfold specAltMealType stripMealType
  cases hB : ciStripWord "Breakfast".toList cs with
  | none =>
    cases hL : ciStripWord "Lunch".toList cs with
    | none => cases hD : ciStripWord "Dinner".toList cs <;> rfl
    | some r => rfl
  | some rb =>
    cases hL : ciStripWord "Lunch".toList cs with
    | some rl => exact (not_lunch_breakfast hL hB).elim
    | none =>
      cases hD : ciStripWord "Dinner".toList cs with
      | none => rfl
      | some rd => exact (not_dinner_breakfast hD hB).elim

theorem stripMealType_parts {cs tok rest : List Char}
    (h : stripMealType cs = some (tok, rest)) :
    cs = tok ++ rest ∧ validMealTypes.contains (normalizeMealType tok) = true := by
  unfold stripMealType at h
  cases hL : ciStripWord "Lunch".toList cs with
  | some r =>
    obtain ⟨tok2, rest2⟩ := r
    rw [hL] at h
    simp only [Option.some.injEq, Prod.mk.injEq] at h
    obtain ⟨rfl, rfl⟩ := h
    obtain ⟨he, hf⟩ := ciStripWord_eq hL
    exact ⟨he, by rw [norm_of_lunch hf]; decide⟩
  | none =>
    rw [hL] at h
    cases hD : ciStripWord "Dinner".toList cs with
    | some r =>
      obtain ⟨tok2, rest2⟩ := r
      rw [hD] at h
      simp only [Option.some.injEq, Prod.mk.injEq] at h
      obtain ⟨rfl, rfl⟩ := h
      obtain ⟨he, hf⟩ := ciStripWord_eq hD
      exact ⟨he, by rw [norm_of_dinner hf]; decide⟩
    | none =>
      rw [hD] at h
      obtain ⟨he, hf⟩ := ciStripWord_eq h
      exact ⟨he, by rw [norm_of_breakfast hf]; decide⟩

theorem contains_nl (l : List Char) :
    l.contains '\n' = decide (('\n' : Char) ∈ l) := by
  simp

theorem all_ne_newline (l : List Char) :
    (l.all fun c => c != '\n') = !decide (('\n' : Char) ∈ l) := by
  induction l with
  | nil => simp
  | cons a t ih =>
    by_cases ha : a = '\n'
    · subst ha; simp
    · simp [ih, ha, Ne.symm ha, bne_iff_ne]

/-- Semantics of the regex tail `\s*(.+)$` on a remainder with no trailing
whitespace: it matches iff dropping the leading whitespace leaves a nonempty
newline-free string, which is then the capture. -/
theorem find?_wsSplitsGreedy {r : List Char} (hr : noTrailWs r) :
    (wsSplitsGreedy r).find? dotPlusEnd =
      (if (r.dropWhile jsWs).isEmpty || (r.dropWhile jsWs).contains '\n' then none
       else some (r.dropWhile jsWs)) := by
  induction r with
  | nil => simp [wsSplitsGreedy, dotPlusEnd, List.find?]
  | cons c t ih =>
    by_cases hc : jsWs c
    · rcases eq_or_ne t [] with rfl | ht
      · exact absurd (hr c (by simp [List.getLast?])) (by simp [hc])
      · have hrt : noTrailWs t := noTrailWs_cons hr ht
        have hs : t.dropWhile jsWs ≠ [] := dropWhile_ne_nil_of_noTrail ht hrt
        have hie : (t.dropWhile jsWs).isEmpty = false := by simpa using hs
        rw [show wsSplitsGreedy (c :: t) = wsSplitsGreedy t ++ [c :: t] from by
              simp [wsSplitsGreedy, hc],
            List.find?_append, ih hrt, List.dropWhile_cons_of_pos hc, hie, contains_nl]
        by_cases hnl : ('\n' : Char) ∈ t.dropWhile jsWs
        · have hmem : ('\n' : Char) ∈ c :: t :=
            List.mem_cons_of_mem _ ((List.dropWhile_sublist _).subset hnl)
          have hdp : dotPlusEnd (c :: t) = false := by
            rw [dotPlusEnd, all_ne_newline, decide_eq_true hmem]
            simp
          simp [List.find?, hdp, hnl]
        · simp [hnl]
    · rw [show wsSplitsGreedy (c :: t) = [c :: t] from by simp [wsSplitsGreedy, hc],
          List.dropWhile_cons_of_neg hc, contains_nl]
      have hie : (c :: t).isEmpty = false := rfl
      have hdp : dotPlusEnd (c :: t) = !decide (('\n' : Char) ∈ c :: t) := by
        rw [dotPlusEnd, all_ne_newline]
        simp
      by_cases hnl : ('\n' : Char) ∈ c :: t
      · simp [List.find?, hdp, hnl, hie]
      · simp [List.find?, hdp, hnl, hie]

/-- A whitespace character matches none of the alternation letters. -/
theorem ws_no_letter {c : Char} (hc : jsWs c = true) :
    ciCharMatch 'B' c = false ∧ ciCharMatch 'L' c = false ∧ ciCharMatch 'D' c = false := by
  simp only [jsWs, Bool.or_eq_true, beq_iff_eq] at hc
  rcases hc with ((((rfl | rfl) | rfl) | rfl) | rfl) | rfl <;>
    exact ⟨by decide, by decide, by decide⟩

theorem specTailMatch_none_of_no_letter {m : Bool} {c : Char} {t : List Char}
    (hB : ciCharMatch 'B' c = false) (hL : ciCharMatch 'L' c = false)
    (hD : ciCharMatch 'D' c = false) : specTailMatch m (c :: t) = none := by
  have h1 : ciStripWord ['B', 'r', 'e', 'a', 'k', 'f', 'a', 's', 't'] (c :: t) = none :=
    ciStripWord_cons_neg hB
  have h2 : ciStripWord ['L', 'u', 'n', 'c', 'h'] (c :: t) = none :=
    ciStripWord_cons_neg hL
  have h3 : ciStripWord ['D', 'i', 'n', 'n', 'e', 'r'] (c :: t) = none :=
    ciStripWord_cons_neg hD
  simp [specTailMatch, specAltMealType, h1, h2, h3]

theorem specTailMatch_ws_head {m : Bool} {c : Char} {t : List Char}
    (hc : jsWs c = true) : specTailMatch m (c :: t) = none := by
  obtain ⟨hB, hL, hD⟩ := ws_no_letter hc
  exact specTailMatch_none_of_no_letter hB hL hD

theorem specTailMatch_star_head {m : Bool} {t : List Char} :
    specTailMatch m ('*' :: t) = none :=
  specTailMatch_none_of_no_letter (by decide) (by decide) (by decide)

/-- Backtracking through `(\*\s*)?`'s inner `\s*` is equivalent to consuming
the maximal whitespace prefix: a retained whitespace character can never
start the meal-type alternation. -/
theorem findSome?_wsSplitsGreedy (t : List Char) :
    (wsSplitsGreedy t).findSome? (specTailMatch true) =
      specTailMatch true (t.dropWhile jsWs) := by
  induction t with
  | nil => cases h : specTailMatch true [] <;> simp [wsSplitsGreedy, List.findSome?, h]
  | cons c u ih =>
    by_cases hc : jsWs c
    · rw [show wsSplitsGreedy (c :: u) = wsSplitsGreedy u ++ [c :: u] from by
            simp [wsSplitsGreedy, hc],
          List.findSome?_append, ih, List.dropWhile_cons_of_pos hc]
      cases h : specTailMatch true (u.dropWhile jsWs) with
      | some v => simp
      | none => simp [List.findSome?, specTailMatch_ws_head hc]
    · rw [show wsSplitsGreedy (c :: u) = [c :: u] from by simp [wsSplitsGreedy, hc],
          List.dropWhile_cons_of_neg hc]
      cases h : specTailMatch true (c :: u) with
      | some v => simp [List.findSome?, h]
      | none => simp [List.findSome?, h]

/-- On a remainder with no trailing whitespace the source's deterministic
reading of the regex agrees with the claim-side backtracking matcher. -/
theorem parseCore_eq_specTail (m : Bool) {cs1 : List Char} (h : noTrailWs cs1) :
    parseCore m cs1 = specTailMatch m cs1 := by
  unfold parseCore specTailMatch
  rw [specAlt_eq_strip]
  cases hs : stripMealType cs1 with
  | none => rfl
  | some pr =>
    obtain ⟨tok, rest⟩ := pr
    obtain ⟨he, hv⟩ := stripMealType_parts hs
    cases rest with
    | nil => rfl
    | cons c r0 =>
      by_cases hcc : c = ':'
      · subst hcc
        have hr : noTrailWs r0 := by
          rcases eq_or_ne r0 [] with rfl | h0
          · exact noTrailWs_nil
          · exact noTrailWs_cons
              (noTrailWs_append_right (he ▸ h) (by simp)) h0
        show (if ((r0.dropWhile jsWs).isEmpty || (r0.dropWhile jsWs).contains '\n') = true
              then none
              else if validMealTypes.contains (normalizeMealType tok) = true
                then some (ParsedMeal.mk (normalizeMealType tok)
                  (String.mk (jsTrim (r0.dropWhile jsWs))) m)
                else none) =
            (match (wsSplitsGreedy r0).find? dotPlusEnd with
              | some cap => some (ParsedMeal.mk (normalizeMealType tok)
                  (String.mk (jsTrim cap)) m)
              | none => none)
        rw [find?_wsSplitsGreedy hr]
        by_cases hcond :
            ((r0.dropWhile jsWs).isEmpty || (r0.dropWhile jsWs).contains '\n') = true
        · rw [if_pos hcond, if_pos hcond]
        · rw [if_neg hcond, if_neg hcond, if_pos hv]
      · simp [hcc]

/-- The parser equals the claim's regex applied to the *trimmed* title: the
source trims the raw title before matching.  (`c7_parse_counterexample`
shows the two sides differ on an untrimmed title.) -/
theorem parse_eq_specRegexMatch (title : String) :
    parseEventTitle title = specRegexMatch (jsTrim title.toList) := by
  unfold parseEventTitle specRegexMatch
  by_cases h0 : title = ""
  · subst h0
    rw [if_pos rfl]
    decide
  · rw [if_neg h0]
    have hns := jsTrim_noTrail title.toList
    cases hcs : jsTrim title.toList with
    | nil => exact parseCore_eq_specTail false noTrailWs_nil
    | cons c rest =>
      rw [hcs] at hns
      by_cases hc : c = '*'
      · subst hc
        show parseCore true (rest.dropWhile jsWs) =
          (match (wsSplitsGreedy rest).findSome? (specTailMatch true) with
            | some res => some res
            | none => specTailMatch false ('*' :: rest))
        rw [findSome?_wsSplitsGreedy]
        have hr : noTrailWs (rest.dropWhile jsWs) := by
          rcases eq_or_ne rest [] with rfl | h1
          · exact noTrailWs_nil
          · exact noTrailWs_dropWhile (noTrailWs_cons hns h1)
        rw [parseCore_eq_specTail true hr]
        cases h2 : specTailMatch true (rest.dropWhile jsWs) with
        | some v => simp
        | none => simp [specTailMatch_star_head]
      · show (if c = '*' then parseCore true (rest.dropWhile jsWs)
              else parseCore false (c :: rest)) =
            (if c = '*' then
                match (wsSplitsGreedy rest).findSome? (specTailMatch true) with
                | some res => some res
                | none => specTailMatch false (c :: rest)
              else specTailMatch false (c :: rest))
        rw [if_neg hc, if_neg hc]
        exact parseCore_eq_specTail false hns

/-- C7 counterexample: `parseEventTitle` trims the raw title first, so the
title `" Lunch: Pizza"` — which does *not* match the claim's anchored
pattern — still yields a `MealEvent`. -/
theorem c7_parse_counterexample :
    parseEventTitle " Lunch: Pizza" = some ⟨"Lunch", "Pizza", false⟩ ∧
    specRegexMatch " Lunch: Pizza".toList = none := by
  constructor <;> decide

/-- C7 (amended): `parse` returns a `MealEvent` exactly for titles whose
*trimmed* form matches `^(\*\s*)?(Breakfast|Lunch|Dinner):\s*(.+)$`
(case-insensitive meal-type token) — with the meal type in title case, the
recipe name trimmed, and the emphasis flag true iff the marker prefix was
present — and `null` for every other string; in particular
"Team Meeting" → null, "Lunch: Pizza" → `{Lunch, "Pizza", false}`,
"* Lunch: Pizza" → `{Lunch, "Pizza", true}`. -/
theorem c7_parser_pattern_amended :
    (∀ title : String, parseEventTitle title = specRegexMatch (jsTrim title.toList)) ∧
    parseEventTitle "Team Meeting" = none ∧
    parseEventTitle "Lunch: Pizza" = some ⟨"Lunch", "Pizza", false⟩ ∧
    parseEventTitle "* Lunch: Pizza" = some ⟨"Lunch", "Pizza", true⟩ :=
  ⟨parse_eq_specRegexMatch, by decide, by decide, by decide⟩

/-! ## Recipe-name normalization (`normalizeRecipeName`, eventParser.js)

`recipeName.toLowerCase().trim().replace(/[^\w\s]/g, '').replace(/\s+/g, ' ')`
with the falsy guard returning `""`. -/

/-- JS `\w` (ASCII): letters, digits, underscore. -/
def jsWordChar (c : Char) : Bool :=
  ('a' ≤ c && c ≤ 'z') || ('A' ≤ c && c ≤ 'Z') || ('0' ≤ c && c ≤ '9') || c == '_'

/-- `.replace(/\s+/g, ' ')`: collapse every whitespace run to a single
space (the flag records whether we are inside a run). -/
def collapseWsAux : Bool → List Char → List Char
  | _, [] => []
  | inRun, c :: cs =>
    if jsWs c then
      if inRun then collapseWsAux true cs else ' ' :: collapseWsAux true cs
    else c :: collapseWsAux false cs

def normalizeRecipeName (name : String) : String :=
  if name = "" then ""
  else
    String.mk (collapseWsAux false
      ((jsTrim (name.toList.map Char.toLower)).filter
        (fun c => jsWordChar c || jsWs c)))

/-! ## Levenshtein distance (`levenshteinDistance`, recipeMatcher.js)

The source fills a `(len1+1) × (len2+1)` matrix row by row with
`matrix[i][0] = i`, `matrix[0][j] = j` and
`matrix[i][j] = min(matrix[i-1][j] + 1, matrix[i][j-1] + 1,
matrix[i-1][j-1] + cost)`, then returns `matrix[len1][len2]`.  The embedding
passes each completed row explicitly. -/

/-- One row of the matrix fill: `diag` is `prev[j-1]`, `left` is the entry
just written (`next[j-1]`), `prevTail` is `prev[j..]`, and the walk follows
the remaining characters of `str2`. -/
def levRowAux (c1 : Char) : List Char → Nat → Nat → List Nat → List Nat
  | [], _, _, _ => []
  | _ :: _, _, _, [] => []
  | c2 :: t, diag, left, pUp :: pRest =>
    let v := min (pUp + 1) (min (left + 1) (diag + if c1 = c2 then 0 else 1))
    v :: levRowAux c1 t pUp v pRest

/-- `levenshteinDistance` from recipeMatcher.js. -/
def levenshteinDistance (s1 s2 : List Char) : Nat :=
  let row0 := List.range (s2.length + 1)
  let final := s1.foldl
    (fun prev c1 =>
      match prev with
      | [] => []
      | p0 :: pRest => (p0 + 1) :: levRowAux c1 s2 p0 (p0 + 1) pRest)
    row0
  final.getLast?.getD 0

/-- Claim-side artefact: classic unit-cost
insertion/deletion/substitution edit distance between the length-`i` prefix
of `s1` and the length-`j` prefix of `s2` (Wagner–Fischer recurrence). -/
def editDistance (s1 s2 : List Char) : Nat → Nat → Nat
  | 0, j => j
  | i + 1, 0 => i + 1
  | i + 1, j + 1 =>
    min (editDistance s1 s2 i (j + 1) + 1)
      (min (editDistance s1 s2 (i + 1) j + 1)
        (editDistance s1 s2 i j + if s1.getD i ' ' = s2.getD j ' ' then 0 else 1))
termination_by i j => (i, j)

/-- Row `i` of the Wagner–Fischer matrix, as a list over `j = 0 .. len2`. -/
def rowAt (s1 s2 : List Char) (i : Nat) : List Nat :=
  (List.range (s2.length + 1)).map (editDistance s1 s2 i)

theorem editDistance_zero_right (s1 s2 : List Char) (i : Nat) :
    editDistance s1 s2 i 0 = i := by
  cases i <;> simp [editDistance]

theorem getD_of_drop {l t : List α} {c : α} {j : Nat} (d : α)
    (h : l.drop j = c :: t) : l.getD j d = c := by
  rw [List.getD_eq_getElem?_getD, ← List.head?_drop, h]
  rfl

/-- The row update of `levenshteinDistance` maps row `i` of the matrix to
row `i+1`: walking the remaining characters of `s2` from column `j0+1`. -/
theorem levRowAux_spec (s1 s2 : List Char) (i : Nat) :
    ∀ (t : List Char) (j0 : Nat), t = s2.drop j0 →
      levRowAux (s1.getD i ' ') t (editDistance s1 s2 i j0)
          (editDistance s1 s2 (i + 1) j0)
          ((List.range' (j0 + 1) t.length).map (editDistance s1 s2 i)) =
        (List.range' (j0 + 1) t.length).map (editDistance s1 s2 (i + 1)) := by
  intro t
  induction t with
  | nil => intro j0 ht; rfl
  | cons c2 t2 ih =>
    intro j0 ht
    have hc2 : s2.getD j0 ' ' = c2 := getD_of_drop ' ' ht.symm
    have ht2 : t2 = s2.drop (j0 + 1) := by
      have := congrArg (List.drop 1) ht
      simpa [List.drop_drop] using this
    rw [show (c2 :: t2).length = t2.length + 1 from rfl, List.range'_succ,
      List.map_cons, List.map_cons]
    show (min (editDistance s1 s2 i (j0 + 1) + 1)
        (min (editDistance s1 s2 (i + 1) j0 + 1)
          (editDistance s1 s2 i j0 + if s1.getD i ' ' = c2 then 0 else 1))) ::
        levRowAux (s1.getD i ' ') t2 (editDistance s1 s2 i (j0 + 1))
          (min (editDistance s1 s2 i (j0 + 1) + 1)
            (min (editDistance s1 s2 (i + 1) j0 + 1)
              (editDistance s1 s2 i j0 + if s1.getD i ' ' = c2 then 0 else 1)))
          ((List.range' (j0 + 1 + 1) t2.length).map (editDistance s1 s2 i)) =
      editDistance s1 s2 (i + 1) (j0 + 1) ::
        (List.range' (j0 + 1 + 1) t2.length).map (editDistance s1 s2 (i + 1))
    have hrec : editDistance s1 s2 (i + 1) (j0 + 1) =
        min (editDistance s1 s2 i (j0 + 1) + 1)
          (min (editDistance s1 s2 (i + 1) j0 + 1)
            (editDistance s1 s2 i j0 + if s1.getD i ' ' = c2 then 0 else 1)) := by
      rw [editDistance, hc2]
    rw [← hrec, ih (j0 + 1) ht2]

theorem rowAt_cons (s1 s2 : List Char) (i : Nat) :
    rowAt s1 s2 i = editDistance s1 s2 i 0 ::
      (List.range' 1 s2.length).map (editDistance s1 s2 i) := by
  rw [rowAt, List.range_eq_range', List.range'_succ]
  simp

/-- Folding the row update over the remaining characters of `s1` carries
row `i` to the final row. -/
theorem fold_rows (s1 s2 : List Char) :
    ∀ (todo : List Char) (i : Nat), todo = s1.drop i →
      todo.foldl
        (fun prev c1 =>
          match prev with
          | [] => []
          | p0 :: pRest => (p0 + 1) :: levRowAux c1 s2 p0 (p0 + 1) pRest)
        (rowAt s1 s2 i) = rowAt s1 s2 (i + todo.length) := by
  intro todo
  induction todo with
  | nil => intro i hi; rfl
  | cons c1 t ih =>
    intro i hi
    have hc1 : s1.getD i ' ' = c1 := getD_of_drop ' ' hi.symm
    have ht : t = s1.drop (i + 1) := by
      have := congrArg (List.drop 1) hi
      simpa [List.drop_drop] using this
    rw [List.foldl_cons, rowAt_cons]
    show List.foldl _ ((editDistance s1 s2 i 0 + 1) ::
        levRowAux c1 s2 (editDistance s1 s2 i 0) (editDistance s1 s2 i 0 + 1)
          ((List.range' 1 s2.length).map (editDistance s1 s2 i))) t =
      rowAt s1 s2 (i + (t.length + 1))
    have h0 : editDistance s1 s2 i 0 + 1 = editDistance s1 s2 (i + 1) 0 := by
      rw [editDistance_zero_right, editDistance_zero_right]
    have hspec := levRowAux_spec s1 s2 i s2 0 (List.drop_zero _).symm
    simp only [Nat.zero_add] at hspec
    rw [h0, ← hc1, hspec, ← rowAt_cons, ih (i + 1) ht,
      show i + 1 + t.length = i + (t.length + 1) from by omega]

/-- The source's row-by-row matrix fill computes the unit-cost Levenshtein
distance. -/
theorem levenshteinDistance_eq_editDistance (s1 s2 : List Char) :
    levenshteinDistance s1 s2 = editDistance s1 s2 s1.length s2.length := by
  have hrow0 : List.range (s2.length + 1) = rowAt s1 s2 0 := by
    have h : List.map (editDistance s1 s2 0) (List.range (s2.length + 1)) =
        List.map (fun j => j) (List.range (s2.length + 1)) :=
      List.map_congr_left (fun j hj => by simp [editDistance])
    rw [rowAt, h, List.map_id']
  show ((s1.foldl
      (fun prev c1 =>
        match prev with
        | [] => []
        | p0 :: pRest => (p0 + 1) :: levRowAux c1 s2 p0 (p0 + 1) pRest)
      (List.range (s2.length + 1))).getLast?).getD 0 =
    editDistance s1 s2 s1.length s2.length
  rw [hrow0, fold_rows s1 s2 s1 0 (List.drop_zero _).symm]
  simp only [Nat.zero_add]
  rw [rowAt, List.getLast?_map, List.range_succ, List.getLast?_concat]
  rfl

/-! ## Recipe Matcher (`recipeMatcher.js`)

Scores are exact rationals (the JS floats of these formulas).  `recipes`
rows carry only the fields the matcher reads. -/

structure Recipe where
  id : Nat
  title : String
deriving DecidableEq, Repr

/-- `calculateSimilarity` from recipeMatcher.js. -/
def calculateSimilarity (str1 str2 : String) : ℚ :=
  let normalized1 := normalizeRecipeName str1
  let normalized2 := normalizeRecipeName str2
  if normalized1 = normalized2 then 1
  else
    let maxLength := max normalized1.length normalized2.length
    if maxLength = 0 then 0
    else 1 - (levenshteinDistance normalized1.toList normalized2.toList : ℚ) / maxLength

/-- The `confidence` tier attached to a fuzzy match. -/
def confidenceTier (s : ℚ) : String :=
  if s ≥ 9/10 then "high" else if s ≥ 8/10 then "medium" else "low"

structure FuzzyMatch where
  recipe : Recipe
  score : ℚ
  confidence : String
deriving DecidableEq, Repr

structure PartialMatch where
  recipe : Recipe
  matchType : String
deriving DecidableEq, Repr

structure MatchRes where
  exactMatch : Option Recipe
  fuzzyMatches : List FuzzyMatch
  partialMatches : List PartialMatch
deriving DecidableEq, Repr

/-- JS `String.prototype.includes`: substring (infix) containment; the empty
string is contained in everything. -/
def jsIncludes (big small : String) : Bool :=
  decide (small.toList <:+: big.toList)

/-- Stable insertion into a descending-by-score list: an element goes in
front of the first entry whose score does not exceed it. -/
def insertFuzzy (x : FuzzyMatch) : List FuzzyMatch → List FuzzyMatch
  | [] => [x]
  | y :: ys => if x.score ≥ y.score then x :: y :: ys else y :: insertFuzzy x ys

/-- `fuzzyMatches.sort((a, b) => b.score - a.score)`: a stable descending
sort (Array.prototype.sort is stable since ES2019), modelled as stable
insertion sort. -/
def sortFuzzy : List FuzzyMatch → List FuzzyMatch
  | [] => []
  | x :: xs => insertFuzzy x (sortFuzzy xs)

/-- One iteration of the `matchRecipe` loop over the catalog. -/
def matchStep (nS : String) (recipeName : String) (threshold : ℚ)
    (acc : Option Recipe × List FuzzyMatch × List PartialMatch) (recipe : Recipe) :
    Option Recipe × List FuzzyMatch × List PartialMatch :=
  let nT := normalizeRecipeName recipe.title
  if nS = nT then (some recipe, acc.2.1, acc.2.2)
  else
    let similarity := calculateSimilarity recipeName recipe.title
    let fz := if similarity ≥ threshold then
        acc.2.1 ++ [⟨recipe, similarity, confidenceTier similarity⟩]
      else acc.2.1
    let pt := if jsIncludes nT nS || jsIncludes nS nT then
        acc.2.2 ++ [⟨recipe, if jsIncludes nT nS then "contains" else "contained_in"⟩]
      else acc.2.2
    (acc.1, fz, pt)

/-- `matchRecipe` from recipeMatcher.js (default `threshold` is 0.8 at the
call sites that use the default). -/
def matchRecipe (recipeName : String) (recipes : List Recipe) (threshold : ℚ) :
    MatchRes :=
  if recipeName = "" ∨ recipes = [] then ⟨none, [], []⟩
  else
    let nS := normalizeRecipeName recipeName
    let res := recipes.foldl (matchStep nS recipeName threshold) (none, [], [])
    ⟨res.1, sortFuzzy res.2.1, res.2.2⟩

structure BestMatch where
  recipe : Recipe
  score : ℚ
  matchType : String
  confidence : Option String
  partialMatchType : Option String
deriving DecidableEq, Repr

/-- `findBestMatch` from recipeMatcher.js (default `threshold` 0.85):
exact match first, then the top fuzzy match, then the first partial match
with the fixed score 0.7, else `null`. -/
def findBestMatch (recipeName : String) (recipes : List Recipe) (threshold : ℚ) :
    Option BestMatch :=
  let mres := matchRecipe recipeName recipes threshold
  match mres.exactMatch with
  | some r => some ⟨r, 1, "exact", none, none⟩
  | none =>
    match mres.fuzzyMatches with
    | best :: _ => some ⟨best.recipe, best.score, "fuzzy", some best.confidence, none⟩
    | [] =>
      match mres.partialMatches with
      | best :: _ => some ⟨best.recipe, 7/10, "partial", none, some best.matchType⟩
      | [] => none

/-! ### Claim-side description of the fuzzy list -/

/-- The claim's score formula:
`1 − editDistance(normalized name, normalized title) / max(lengths)`. -/
def specScore (name title : String) : ℚ :=
  1 - (editDistance (normalizeRecipeName name).toList (normalizeRecipeName title).toList
        (normalizeRecipeName name).toList.length
        (normalizeRecipeName title).toList.length : ℚ) /
      (max (normalizeRecipeName name).toList.length
        (normalizeRecipeName title).toList.length)

/-- The claim's fuzzy candidates: every non-exactly-matching catalog entry
whose score reaches the threshold, in catalog order. -/
def fuzzyCandidates (name : String) (recipes : List Recipe) (threshold : ℚ) :
    List FuzzyMatch :=
  (recipes.filter (fun r =>
      normalizeRecipeName name ≠ normalizeRecipeName r.title ∧
        specScore name r.title ≥ threshold)).map
    (fun r => ⟨r, specScore name r.title, confidenceTier (specScore name r.title)⟩)

/-! ### Matcher lemmas -/

theorem string_length_toList (s : String) : s.toList.length = s.length := rfl

theorem calcSim_eq_specScore {a b : String}
    (h : normalizeRecipeName a ≠ normalizeRecipeName b) :
    calculateSimilarity a b = specScore a b := by
  unfold calculateSimilarity specScore
  rw [if_neg h]
  have hmax : ¬(max (normalizeRecipeName a).length (normalizeRecipeName b).length = 0) := by
    intro h0
    rw [Nat.max_eq_zero_iff] at h0
    apply h
    have ha : normalizeRecipeName a = "" := by
      cases hd : normalizeRecipeName a with
      | mk data => cases data with
        | nil => rfl
        | cons c cs =>
          exfalso
          have : (normalizeRecipeName a).length = 0 := h0.1
          rw [hd] at this
          simp [String.length] at this
    have hb : normalizeRecipeName b = "" := by
      cases hd : normalizeRecipeName b with
      | mk data => cases data with
        | nil => rfl
        | cons c cs =>
          exfalso
          have : (normalizeRecipeName b).length = 0 := h0.2
          rw [hd] at this
          simp [String.length] at this
    rw [ha, hb]
  rw [if_neg hmax, levenshteinDistance_eq_editDistance]
  rfl

/-- The fuzzy accumulator of the `matchRecipe` loop collects exactly the
claim's candidates, in catalog order, appended to the incoming accumulator. -/
theorem fold_fuzzy (name : String) (θ : ℚ) (rs : List Recipe) :
    ∀ acc : Option Recipe × List FuzzyMatch × List PartialMatch,
      (rs.foldl (matchStep (normalizeRecipeName name) name θ) acc).2.1 =
        acc.2.1 ++ fuzzyCandidates name rs θ := by
  induction rs with
  | nil => intro acc; simp [fuzzyCandidates]
  | cons r rs ih =>
    intro acc
    rw [List.foldl_cons, ih]
    by_cases hx : normalizeRecipeName name = normalizeRecipeName r.title
    · simp [matchStep, hx, fuzzyCandidates]
    · have hsim : calculateSimilarity name r.title = specScore name r.title :=
        calcSim_eq_specScore hx
      by_cases hθ : specScore name r.title ≥ θ
      · simp [matchStep, hx, hsim, hθ, fuzzyCandidates]
      · simp [matchStep, hx, hsim, hθ, fuzzyCandidates]

/-! Stable-descending-sort facts for `sortFuzzy`. -/

theorem insertFuzzy_perm (x : FuzzyMatch) (l : List FuzzyMatch) :
    (insertFuzzy x l).Perm (x :: l) := by
  induction l with
  | nil => exact List.Perm.refl _
  | cons y ys ih =>
    by_cases h : x.score ≥ y.score
    · rw [insertFuzzy, if_pos h]
    · rw [insertFuzzy, if_neg h]
      exact (List.Perm.cons y ih).trans (List.Perm.swap x y ys)

theorem sortFuzzy_perm (l : List FuzzyMatch) : (sortFuzzy l).Perm l := by
  induction l with
  | nil => exact List.Perm.refl _
  | cons x xs ih => exact (insertFuzzy_perm x (sortFuzzy xs)).trans (List.Perm.cons x ih)

theorem insertFuzzy_sorted (x : FuzzyMatch) {l : List FuzzyMatch}
    (h : l.Pairwise (fun a b => b.score ≤ a.score)) :
    (insertFuzzy x l).Pairwise (fun a b => b.score ≤ a.score) := by
  induction l with
  | nil => simp [insertFuzzy]
  | cons y ys ih =>
    rw [List.pairwise_cons] at h
    obtain ⟨hy, hys⟩ := h
    by_cases hxy : x.score ≥ y.score
    · rw [insertFuzzy, if_pos hxy]
      refine List.Pairwise.cons ?_ (List.Pairwise.cons hy hys)
      intro z hz
      rcases List.mem_cons.mp hz with rfl | hz
      · exact hxy
      · exact le_trans (hy z hz) hxy
    · rw [insertFuzzy, if_neg hxy]
      refine List.Pairwise.cons ?_ (ih hys)
      intro z hz
      rcases List.mem_cons.mp ((insertFuzzy_perm x ys).mem_iff.mp hz) with rfl | hz
      · exact le_of_not_ge hxy
      · exact hy z hz

theorem sortFuzzy_sorted (l : List FuzzyMatch) :
    (sortFuzzy l).Pairwise (fun a b => b.score ≤ a.score) := by
  induction l with
  | nil => simp [sortFuzzy]
  | cons x xs ih => exact insertFuzzy_sorted x ih

theorem insertFuzzy_filter (x : FuzzyMatch) (l : List FuzzyMatch) (s : ℚ) :
    (insertFuzzy x l).filter (fun e => e.score = s) =
      if x.score = s then x :: l.filter (fun e => e.score = s)
      else l.filter (fun e => e.score = s) := by
  induction l with
  | nil =>
    by_cases hx : x.score = s
    · simp [insertFuzzy, List.filter, hx]
    · simp [insertFuzzy, List.filter, hx]
  | cons y ys ih =>
    by_cases hxy : x.score ≥ y.score
    · rw [insertFuzzy, if_pos hxy]
      by_cases hx : x.score = s <;> simp [List.filter_cons, hx]
    · rw [insertFuzzy, if_neg hxy]
      by_cases hx : x.score = s
      · have hy : ¬(y.score = s) := by
          intro hy
          exact hxy (by rw [hy, hx])
        simp [List.filter_cons, hx, hy, ih]
      · by_cases hy : y.score = s <;> simp [List.filter_cons, hx, hy, ih]

/-- Stability: restricted to any fixed score, the sorted list is the input
list (catalog iteration order; first occurrence wins on ties). -/
theorem sortFuzzy_filter (l : List FuzzyMatch) (s : ℚ) :
    (sortFuzzy l).filter (fun e => e.score = s) = l.filter (fun e => e.score = s) := by
  induction l with
  | nil => rfl
  | cons x xs ih =>
    rw [sortFuzzy, insertFuzzy_filter, List.filter_cons]
    by_cases hx : x.score = s <;> simp [hx, ih]

theorem norm_ne_empty_of_length {t : String}
    (h : (normalizeRecipeName t).toList.length ≠ 0) : normalizeRecipeName t ≠ "" := by
  intro h0
  rw [h0] at h
  exact h rfl

theorem toList_length_ne_zero {s : String} (h : s ≠ "") : s.toList.length ≠ 0 := by
  intro h0
  apply h
  cases hd : s with
  | mk data =>
    cases data with
    | nil => rfl
    | cons c cs => rw [hd] at h0; simp at h0

/-- A name whose normalization is empty scores 0 against any title whose
normalization is nonempty. -/
theorem specScore_of_norm_empty {name t : String}
    (hn : normalizeRecipeName name = "") (ht : normalizeRecipeName t ≠ "") :
    specScore name t = 0 := by
  unfold specScore
  rw [hn]
  have hlen : ((normalizeRecipeName t).toList.length : ℚ) ≠ 0 := by
    exact_mod_cast Nat.cast_ne_zero.mpr (toList_length_ne_zero ht)
  rw [show ("" : String).toList = ([] : List Char) from rfl]
  rw [show (([] : List Char).length) = 0 from rfl]
  rw [show editDistance [] (normalizeRecipeName t).toList 0
      ((normalizeRecipeName t).toList.length) =
      (normalizeRecipeName t).toList.length from by simp [editDistance]]
  rw [Nat.zero_max, div_self hlen]
  ring

/-- The fuzzy list of `matchRecipe` is the stable descending sort of the
claim's candidate list (for a positive threshold). -/
theorem matchRecipe_fuzzy_eq (name : String) (recipes : List Recipe) (θ : ℚ)
    (hθ : 0 < θ) :
    (matchRecipe name recipes θ).fuzzyMatches =
      sortFuzzy (fuzzyCandidates name recipes θ) := by
  by_cases hg : name = "" ∨ recipes = []
  · rw [matchRecipe, if_pos hg]
    rcases hg with rfl | rfl
    · have hcand : fuzzyCandidates "" recipes θ = [] := by
        rw [fuzzyCandidates]
        rw [List.filter_eq_nil_iff.mpr ?_]
        · rfl
        · intro r hr
          simp only [decide_eq_true_eq, not_and]
          intro hne
          by_cases ht : normalizeRecipeName r.title = ""
          · exact absurd (by rw [ht]; decide) hne
          · rw [specScore_of_norm_empty (by decide) ht]
            exact not_le.mpr hθ
      rw [hcand]
      rfl
    · simp [fuzzyCandidates, sortFuzzy]
  · push_neg at hg
    rw [matchRecipe, if_neg (by simp [hg.1, hg.2])]
    show sortFuzzy
        ((recipes.foldl (matchStep (normalizeRecipeName name) name θ) (none, [], [])).2.1) =
      sortFuzzy (fuzzyCandidates name recipes θ)
    rw [fold_fuzzy name θ recipes (none, [], [])]
    rfl

/-- C6: within `matchRecipe`, every non-exactly-matching catalog entry is
scored `1 − d/max` by unit-cost edit distance over the normalized strings;
the fuzzy list holds exactly the entries reaching the threshold, in
descending score order with catalog-order tie-breaking; `findBestMatch`
returns the exact match when one exists and otherwise the top fuzzy match,
whose score then clears the threshold it was called with (0.85 at the
acceptance call sites). -/
theorem c6_matcher_scoring (name : String) (recipes : List Recipe) (θ : ℚ)
    (hθ : 0 < θ) :
    (matchRecipe name recipes θ).fuzzyMatches =
        sortFuzzy (fuzzyCandidates name recipes θ) ∧
    ((matchRecipe name recipes θ).fuzzyMatches).Pairwise
        (fun a b => b.score ≤ a.score) ∧
    (∀ s : ℚ, ((matchRecipe name recipes θ).fuzzyMatches).filter
        (fun e => e.score = s) =
      (fuzzyCandidates name recipes θ).filter (fun e => e.score = s)) ∧
    ((matchRecipe name recipes θ).fuzzyMatches).Perm
        (fuzzyCandidates name recipes θ) ∧
    (∀ r, (matchRecipe name recipes θ).exactMatch = some r →
      findBestMatch name recipes θ = some ⟨r, 1, "exact", none, none⟩) ∧
    ((matchRecipe name recipes θ).exactMatch = none →
      ∀ f l, (matchRecipe name recipes θ).fuzzyMatches = f :: l →
        findBestMatch name recipes θ =
            some ⟨f.recipe, f.score, "fuzzy", some f.confidence, none⟩ ∧
          θ ≤ f.score ∧
          ∀ g ∈ (matchRecipe name recipes θ).fuzzyMatches, g.score ≤ f.score) := by
  have hfe := matchRecipe_fuzzy_eq name recipes θ hθ
  refine ⟨hfe, ?_, ?_, ?_, ?_, ?_⟩
  · rw [hfe]; exact sortFuzzy_sorted _
  · intro s; rw [hfe]; exact sortFuzzy_filter _ s
  · rw [hfe]; exact sortFuzzy_perm _
  · intro r hx
    simp [findBestMatch, hx]
  · intro hx f l hfz
    have hbest : findBestMatch name recipes θ =
        some ⟨f.recipe, f.score, "fuzzy", some f.confidence, none⟩ := by
      simp [findBestMatch, hx, hfz]
    have hmemf : f ∈ fuzzyCandidates name recipes θ := by
      have h1 : f ∈ (matchRecipe name recipes θ).fuzzyMatches := by
        rw [hfz]; exact List.mem_cons_self _ _
      rw [hfe] at h1
      exact (sortFuzzy_perm _).subset h1
    have hscore : θ ≤ f.score := by
      rw [fuzzyCandidates] at hmemf
      obtain ⟨r, hr, hfr⟩ := List.mem_map.mp hmemf
      obtain ⟨-, hcond⟩ := List.mem_filter.mp hr
      rw [decide_eq_true_eq] at hcond
      rw [← hfr]
      exact hcond.2
    refine ⟨hbest, hscore, ?_⟩
    intro g hg
    have hsorted := (matchRecipe_fuzzy_eq name recipes θ hθ) ▸ sortFuzzy_sorted
        (fuzzyCandidates name recipes θ)
    rw [hfz] at hsorted hg
    rcases List.mem_cons.mp hg with rfl | hg
    · exact le_refl _
    · exact (List.pairwise_cons.mp hsorted).1 g hg

/-- C6 witness: the hypothesis `0 < θ` is discharged at `θ = 1/2` on a
concrete catalog. -/
theorem c6_matcher_scoring_witness :
    (0 : ℚ) < 1/2 ∧
    (matchRecipe "Spaghetti Carbona" [⟨1, "Spaghetti Carbonara"⟩] (1/2)).fuzzyMatches =
      sortFuzzy (fuzzyCandidates "Spaghetti Carbona" [⟨1, "Spaghetti Carbonara"⟩] (1/2)) :=
  ⟨one_half_pos,
   (c6_matcher_scoring "Spaghetti Carbona" [⟨1, "Spaghetti Carbonara"⟩] (1/2)
     one_half_pos).1⟩

/-! ### C10: names whose normalization is empty -/

theorem jsIncludes_empty (big : String) : jsIncludes big "" = true :=
  decide_eq_true List.nil_infix

/-- With an empty-normalizing name and no empty-normalizing titles, the
`matchRecipe` loop records every entry as a `contains` partial match and
nothing else. -/
theorem fold_empty_norm (name : String) (θ : ℚ)
    (h0 : normalizeRecipeName name = "") (hθ : 0 < θ) :
    ∀ (rs : List Recipe), (∀ r ∈ rs, normalizeRecipeName r.title ≠ "") →
      ∀ acc : Option Recipe × List FuzzyMatch × List PartialMatch,
        rs.foldl (matchStep (normalizeRecipeName name) name θ) acc =
          (acc.1, acc.2.1, acc.2.2 ++ rs.map (fun r => ⟨r, "contains"⟩)) := by
  intro rs
  induction rs with
  | nil => intro _ acc; simp
  | cons r rs ih =>
    intro ht acc
    have htr : normalizeRecipeName r.title ≠ "" := ht r (List.mem_cons_self _ _)
    have hne : normalizeRecipeName name ≠ normalizeRecipeName r.title := by
      rw [h0]; exact fun h => htr h.symm
    have hsim : calculateSimilarity name r.title = 0 := by
      rw [calcSim_eq_specScore hne, specScore_of_norm_empty h0 htr]
    have hinc : jsIncludes (normalizeRecipeName r.title) (normalizeRecipeName name) = true := by
      rw [h0]; exact jsIncludes_empty _
    rw [List.foldl_cons]
    rw [show matchStep (normalizeRecipeName name) name θ acc r =
        (acc.1, acc.2.1, acc.2.2 ++ [⟨r, "contains"⟩]) from by
      simp [matchStep, hne, hsim, hinc, not_le.mpr hθ]]
    rw [ih (fun x hx => ht x (List.mem_cons_of_mem _ hx)) _]
    simp

/-- C10 counterexample: for the punctuation-only name `"!!!"` and a catalog
whose single title `"???"` *also* normalizes to the empty string, the entry
is consumed by the exact-match branch: it is **not** reported as a partial
match, and `findBestMatch` returns an exact match with score 1 instead of a
partial match with score 0.7. -/
theorem c10_matcher_counterexample :
    (matchRecipe "!!!" [⟨1, "???"⟩] (8/10)).partialMatches = [] ∧
    findBestMatch "!!!" [⟨1, "???"⟩] (17/20) =
      some ⟨⟨1, "???"⟩, 1, "exact", none, none⟩ := by
  constructor <;> decide

/-- C10 (amended): for a non-empty name normalizing to the empty string and
a non-empty catalog in which **no title itself normalizes to the empty
string**, `matchRecipe` reports every catalog entry as a `contains` partial
match (the empty string is a substring of every normalized title), no exact
and no fuzzy match, and `findBestMatch` (acceptance threshold 0.85) returns
the first catalog entry as a `partial` match with score 0.7 rather than
`None`.  (An entry whose title also normalizes to empty is instead taken by
the exact-match branch — see the counterexample.) -/
theorem c10_empty_normalization_amended (name : String) (recipes : List Recipe)
    (hn : name ≠ "") (h0 : normalizeRecipeName name = "")
    (ht : ∀ r ∈ recipes, normalizeRecipeName r.title ≠ "") :
    (matchRecipe name recipes (8/10)).partialMatches =
        recipes.map (fun r => ⟨r, "contains"⟩) ∧
      (matchRecipe name recipes (8/10)).exactMatch = none ∧
      (matchRecipe name recipes (8/10)).fuzzyMatches = [] ∧
      ∀ r0 rs, recipes = r0 :: rs →
        findBestMatch name recipes (17/20) =
          some ⟨r0, 7/10, "partial", none, some "contains"⟩ := by
  have hchar : ∀ θ : ℚ, 0 < θ → matchRecipe name recipes θ =
      ⟨none, [], recipes.map (fun r => ⟨r, "contains"⟩)⟩ := by
    intro θ hθ
    rcases eq_or_ne recipes [] with rfl | hrs
    · rw [matchRecipe, if_pos (Or.inr rfl)]
      rfl
    · rw [matchRecipe, if_neg (by simp [hn, hrs])]
      show (⟨(recipes.foldl (matchStep (normalizeRecipeName name) name θ) (none, [], [])).1,
          sortFuzzy
            (recipes.foldl (matchStep (normalizeRecipeName name) name θ) (none, [], [])).2.1,
          (recipes.foldl (matchStep (normalizeRecipeName name) name θ)
            (none, [], [])).2.2⟩ : MatchRes) =
        ⟨none, [], recipes.map (fun r => ⟨r, "contains"⟩)⟩
      rw [fold_empty_norm name θ h0 hθ recipes ht (none, [], [])]
      simp [sortFuzzy]
  have h45 : (0:ℚ) < 8/10 := by norm_num
  have h85 : (0:ℚ) < 17/20 := by norm_num
  refine ⟨?_, ?_, ?_, ?_⟩
  · rw [hchar _ h45]
  · rw [hchar _ h45]
  · rw [hchar _ h45]
  · intro r0 rs hre
    subst hre
    simp [findBestMatch, hchar _ h85]

/-- C10 witness: concrete punctuation-only name against a two-recipe
catalog, discharging every hypothesis by evaluation. -/
theorem c10_empty_normalization_witness :
    ("!!!" : String) ≠ "" ∧ normalizeRecipeName "!!!" = "" ∧
    findBestMatch "!!!" [⟨1, "Pizza"⟩, ⟨2, "Curry"⟩] (17/20) =
      some ⟨⟨1, "Pizza"⟩, 7/10, "partial", none, some "contains"⟩ :=
  ⟨by decide, by decide,
   (c10_empty_normalization_amended "!!!" [⟨1, "Pizza"⟩, ⟨2, "Curry"⟩] (by decide)
       (by decide) (by decide)).2.2.2 ⟨1, "Pizza"⟩ [⟨2, "Curry"⟩] rfl⟩

/-! ## Sync Engine state model (`syncEngine.js`, `useAutoSync.js`)

The Supabase store is an explicit record of the three tables touched by the
sync core plus an id counter and the current clock (`new Date()`), which
only moves between operations.  Per migrations 002/003, `meals` carries no
uniqueness constraint and `unmatched_events.event_id` is UNIQUE (the code
checks before inserting, so the constraint is never hit).  The shopping-list
side effect of import touches only the out-of-scope `shopping_list` table
and its failure is swallowed by the source, so it is omitted from the state.
Fallible datastore calls are modelled by failure oracles indexed by loop
position; `sync_log` inserts are modelled as succeeding (`logSyncOperation`
swallows its own errors and they alter no control flow). -/

structure GEvent where
  id : String
  summary : String
  startDate : String
deriving DecidableEq, Repr

structure MealEvent where
  eventId : String
  mealType : String
  recipeName : String
  hasAsterisk : Bool
  date : String
  originalTitle : String
deriving DecidableEq, Repr

/-- `extractMealEvents` from eventParser.js (the date of an all-day event is
`event.start.date`). -/
def extractMealEvents (events : List GEvent) : List MealEvent :=
  events.filterMap (fun ev =>
    (parseEventTitle ev.summary).map (fun p =>
      ⟨ev.id, p.mealType, p.recipeName, p.hasAsterisk, ev.startDate, ev.summary⟩))

def isDigit (c : Char) : Bool := '0' ≤ c && c ≤ '9'

/-- `^\d{4}-\d{2}-\d{2}$` from `validateMealEvent`. -/
def validDateShape (d : String) : Bool :=
  match d.toList with
  | [y1, y2, y3, y4, h1, m1, m2, h2, d1, d2] =>
    isDigit y1 && isDigit y2 && isDigit y3 && isDigit y4 && h1 == '-' &&
      isDigit m1 && isDigit m2 && h2 == '-' && isDigit d1 && isDigit d2
  | _ => false

/-- `validateMealEvent` from eventParser.js, as its error list (`valid` is
`errors = []`).  A falsy meal type is never in `VALID_MEAL_TYPES` and a
falsy recipe name trims to empty, so the falsy checks collapse into the
main conditions. -/
def validateMealEvent (e : MealEvent) : List String :=
  (if validMealTypes.contains e.mealType then []
   else ["Invalid meal type. Must be Lunch, Dinner, or Breakfast"]) ++
  (if jsTrim e.recipeName.toList = [] then ["Recipe name is required"] else []) ++
  (if e.date = "" then ["Date is required"]
   else if validDateShape e.date then []
   else ["Invalid date format. Expected YYYY-MM-DD"])

structure MatchedEvent where
  event : MealEvent
  recipe : Recipe
  matchScore : ℚ
  matchType : String
  confidence : Option String
deriving DecidableEq, Repr

structure ImportResults where
  matched : List MatchedEvent
  unmatched : List MealEvent
  errors : List (MealEvent × List String)
deriving DecidableEq, Repr

/-- `importFromGoogleCalendar` after the fetch (syncEngine.js): extract,
early-out on no meal events, validate each, match each against the catalog
at acceptance threshold 0.85. -/
def importFromEvents (events : List GEvent) (recipes : List Recipe) : ImportResults :=
  let mealEvents := extractMealEvents events
  if mealEvents.length = 0 then ⟨[], [], []⟩
  else
    mealEvents.foldl
      (fun acc e =>
        if validateMealEvent e ≠ [] then
          { acc with errors := acc.errors ++ [(e, validateMealEvent e)] }
        else
          match findBestMatch e.recipeName recipes (85/100) with
          | some m =>
            { acc with matched :=
                acc.matched ++ [⟨e, m.recipe, m.score, m.matchType, m.confidence⟩] }
          | none => { acc with unmatched := acc.unmatched ++ [e] })
      ⟨[], [], []⟩

structure Meal where
  id : Nat
  date : String
  mealType : String
  recipeId : Nat
  people : List String
  calendarEventId : Option String
  syncSource : Option String
  lastSyncedAt : Option Nat
deriving DecidableEq, Repr

structure UnmatchedRow where
  id : Nat
  eventId : String
  eventTitle : String
  eventDate : String
  mealType : String
  recipeName : String
  status : String
  resolvedAt : Option Nat
  resolvedRecipeId : Option Nat
  notes : Option String
deriving DecidableEq, Repr

structure SyncLogRow where
  eventId : String
  mealId : Option Nat
  direction : String
  status : String
  errorMessage : Option String
  resolvedFromUnmatched : Bool
deriving DecidableEq, Repr

structure DB where
  meals : List Meal
  unmatchedEvents : List UnmatchedRow
  syncLog : List SyncLogRow
  nextId : Nat
  now : Nat
deriving DecidableEq, Repr

/-- Failure oracles for the fallible datastore calls, indexed by the loop
position of the call. -/
structure Env where
  failCheck : Nat → Bool
  failCreate : Nat → Bool
  failStore : Nat → Bool

def noFailEnv : Env := ⟨fun _ => false, fun _ => false, fun _ => false⟩

/-- `logSyncOperation` from syncEngine.js: append-only insert into
`sync_log` (`metadata` is either null or `{resolved_from_unmatched: true}`
at the two call sites, modelled as the final Bool). -/
def logSyncOperation (db : DB) (eventId : String) (mealId : Option Nat)
    (direction status : String) (errorMessage : Option String)
    (resolvedFromUnmatched : Bool) : DB :=
  { db with syncLog := db.syncLog ++
      [⟨eventId, mealId, direction, status, errorMessage, resolvedFromUnmatched⟩] }

/-- The existing-meal check of `createMealsFromEvents`:
`select * from meals where date = … and meal_type = …` is nonempty. -/
def slotTaken (db : DB) (date mealType : String) : Bool :=
  !(db.meals.filter (fun m => m.date = date ∧ m.mealType = mealType)).isEmpty

/-- The meal insert of the import path: snake_case row with default people,
`sync_source = 'google_calendar'`, `last_synced_at = now`. -/
def insertImportedMeal (db : DB) (e : MealEvent) (r : Recipe) : Meal × DB :=
  let m : Meal := ⟨db.nextId, e.date, e.mealType, r.id, ["Kit", "Jess"],
    some e.eventId, some "google_calendar", some db.now⟩
  (m, { db with meals := db.meals ++ [m], nextId := db.nextId + 1 })

structure CreateResults where
  created : List (MealEvent × Recipe × Meal)
  failed : List (MealEvent × Recipe × String)
  skipped : List (MealEvent × Recipe × String)
deriving DecidableEq, Repr

/-- `createMealsFromEvents` from syncEngine.js: per matched event — check
the slot (check error ⇒ `failed`, continue), skip when a meal already
occupies the slot, insert (error ⇒ `failed`, continue), log the creation
with direction `from_google`. -/
def createMealsFromEvents (env : Env) :
    List MatchedEvent → Nat → CreateResults → DB → CreateResults × DB
  | [], _, acc, db => (acc, db)
  | me :: rest, i, acc, db =>
    if env.failCheck i then
      createMealsFromEvents env rest (i + 1)
        { acc with failed :=
            acc.failed ++ [(me.event, me.recipe, "Failed to check existing meals")] } db
    else if slotTaken db me.event.date me.event.mealType then
      createMealsFromEvents env rest (i + 1)
        { acc with skipped := acc.skipped ++
            [(me.event, me.recipe, "Meal already exists for this date and meal type")] } db
    else if env.failCreate i then
      createMealsFromEvents env rest (i + 1)
        { acc with failed :=
            acc.failed ++ [(me.event, me.recipe, "Failed to create meal")] } db
    else
      let md := insertImportedMeal db me.event me.recipe
      let db2 := logSyncOperation md.2 me.event.eventId (some md.1.id)
        "from_google" "success" none false
      createMealsFromEvents env rest (i + 1)
        { acc with created := acc.created ++ [(me.event, me.recipe, md.1)] } db2

structure StoreResults where
  stored : List (MealEvent × UnmatchedRow × Bool)
  failed : List (MealEvent × String)
deriving DecidableEq, Repr

/-- The already-stored check of `storeUnmatchedEvents`:
`select * from unmatched_events where event_id = …`. -/
def findUnmatched (db : DB) (eid : String) : Option UnmatchedRow :=
  db.unmatchedEvents.find? (fun u => u.eventId = eid)

/-- `storeUnmatchedEvents` from syncEngine.js: idempotent insert keyed by
`event_id`; an existing row is reported with `alreadyExists` and left
untouched; a fresh row is inserted with status `pending`. -/
def storeUnmatchedEvents (env : Env) :
    List MealEvent → Nat → StoreResults → DB → StoreResults × DB
  | [], _, acc, db => (acc, db)
  | e :: rest, i, acc, db =>
    match findUnmatched db e.eventId with
    | some u =>
      storeUnmatchedEvents env rest (i + 1)
        { acc with stored := acc.stored ++ [(e, u, true)] } db
    | none =>
      if env.failStore i then
        storeUnmatchedEvents env rest (i + 1)
          { acc with failed := acc.failed ++ [(e, "insert error")] } db
      else
        let row : UnmatchedRow := ⟨db.nextId, e.eventId, e.originalTitle, e.date,
          e.mealType, e.recipeName, "pending", none, none, none⟩
        storeUnmatchedEvents env rest (i + 1)
          { acc with stored := acc.stored ++ [(e, row, false)] }
          { db with unmatchedEvents := db.unmatchedEvents ++ [row],
                    nextId := db.nextId + 1 }

/-- `resolveUnmatchedEvent` from syncEngine.js: fetch the row by id (fetch
error is fatal), then **unconditionally** insert a Meal for the row's slot
— the source has no existing-meal check and no status check — then update
the row to `matched` and log with `resolved_from_unmatched` metadata.  The
meal insert is modelled as succeeding: the migrations place no uniqueness
constraint on `meals`, so the datastore accepts the row. -/
def resolveUnmatchedEvent (db : DB) (unmatchedEventId : Nat) (recipeId : Nat) :
    Except String (Meal × UnmatchedRow × DB) :=
  match db.unmatchedEvents.find? (fun u => u.id = unmatchedEventId) with
  | none => .error "Failed to fetch unmatched event"
  | some u =>
    let meal : Meal := ⟨db.nextId, u.eventDate, u.mealType, recipeId, ["Kit", "Jess"],
      some u.eventId, some "google_calendar", some db.now⟩
    let db1 := { db with meals := db.meals ++ [meal], nextId := db.nextId + 1 }
    let db2 := { db1 with unmatchedEvents := db1.unmatchedEvents.map (fun v =>
        if v.id = unmatchedEventId then
          { v with status := "matched", resolvedAt := some db.now,
                   resolvedRecipeId := some recipeId }
        else v) }
    let db3 := logSyncOperation db2 u.eventId (some meal.id) "from_google" "success"
      none true
    .ok (meal, u, db3)

/-- The import phase of `performSync` (useAutoSync.js, STEP 1):
`createMealsFromEvents` — and, nested inside the same guard,
`storeUnmatchedEvents` — run only when `importResults.matched.length > 0`. -/
def performSyncImportPhase (env : Env) (events : List GEvent)
    (recipes : List Recipe) (db : DB) : DB :=
  let importResults := importFromEvents events recipes
  if importResults.matched.length > 0 then
    let cr := createMealsFromEvents env importResults.matched 0 ⟨[], [], []⟩ db
    if importResults.unmatched.length > 0 then
      (storeUnmatchedEvents env importResults.unmatched 0 ⟨[], []⟩ cr.2).2
    else cr.2
  else db

/-- One run of the import path over a fetched remote snapshot: match, then
`createMealsFromEvents` on the matched list, then `storeUnmatchedEvents` on
the unmatched list, with no datastore failures. -/
def importCycle (events : List GEvent) (recipes : List Recipe) (db : DB) :
    (CreateResults × StoreResults) × DB :=
  let ir := importFromEvents events recipes
  let cr := createMealsFromEvents noFailEnv ir.matched 0 ⟨[], [], []⟩ db
  let sr := storeUnmatchedEvents noFailEnv ir.unmatched 0 ⟨[], []⟩ cr.2
  ((cr.1, sr.1), sr.2)

/-- Invariant: at most one Meal per `(date, mealType)` slot. -/
def slotInvariant (db : DB) : Prop :=
  db.meals.Pairwise (fun a b => ¬(a.date = b.date ∧ a.mealType = b.mealType))

instance slotInvariantDecidable (db : DB) : Decidable (slotInvariant db) := by
  unfold slotInvariant
  infer_instance

/-! ### Export direction (`exportUnsyncedMeals`, useAutoSync.js;
`syncMealToCalendar`, googleCalendar.js) -/

/-- Remote-calendar oracle: per export-loop position, the id of the created
remote event, or `none` when `createCalendarEvent` throws. -/
structure RemoteEnv where
  createResult : Nat → Option String

/-- The candidate query of `exportUnsyncedMeals`:
`… gte('date', start).lte('date', end).is('calendar_event_id', null)`.  The
datastore compares the date strings lexicographically, which on `YYYY-MM-DD`
coincides with date order; the lexicographic order is taken on the
character lists. -/
def exportCandidates (db : DB) (startDateStr endDateStr : String) : List Meal :=
  db.meals.filter (fun m =>
    startDateStr.toList ≤ m.date.toList ∧ m.date.toList ≤ endDateStr.toList ∧
      m.calendarEventId = none)

/-- `syncMealToCalendar`'s write-back: store the returned remote event id on
the meal row — and nothing else; `last_synced_at` is not written. -/
def updateMealEventId (db : DB) (mealId : Nat) (eid : String) : DB :=
  { db with meals := db.meals.map (fun m =>
      if m.id = mealId then { m with calendarEventId := some eid } else m) }

/-- The per-meal export loop: recipe lookup failure or a throwing
`createCalendarEvent` counts the meal as failed and continues; on success
the returned id is stored back onto the meal. -/
def exportLoop (renv : RemoteEnv) (recipes : List Recipe) :
    List Meal → Nat → Nat → Nat → DB → (Nat × Nat) × DB
  | [], _, exported, failed, db => ((exported, failed), db)
  | m :: rest, i, exported, failed, db =>
    match recipes.find? (fun r => r.id = m.recipeId) with
    | none => exportLoop renv recipes rest (i + 1) exported (failed + 1) db
    | some _ =>
      match renv.createResult i with
      | none => exportLoop renv recipes rest (i + 1) exported (failed + 1) db
      | some eid =>
        exportLoop renv recipes rest (i + 1) (exported + 1) failed
          (updateMealEventId db m.id eid)

/-- `exportUnsyncedMeals` from useAutoSync.js. -/
def exportUnsyncedMeals (renv : RemoteEnv) (recipes : List Recipe)
    (startDateStr endDateStr : String) (db : DB) : (Nat × Nat) × DB :=
  let unsynced := exportCandidates db startDateStr endDateStr
  if unsynced.isEmpty then ((0, 0), db)
  else exportLoop renv recipes unsynced 0 0 0 db

/-! ### C2: unmatched events are dropped when nothing matched -/

def c2Events : List GEvent := [⟨"ev9", "Dinner: Mystery Stew", "2025-11-13"⟩]

def c2DB : DB := ⟨[], [], [], 0, 0⟩

/-- C2 (code bug): a cycle whose single remote event parses and validates
but matches no recipe produces `matched = []`, and `performSync`'s import
phase — which gates `storeUnmatchedEvents` behind
`importResults.matched.length > 0` — leaves the store untouched: the
pending `UnmatchedEvent` the spec requires is never written, although
`storeUnmatchedEvents` itself would have stored it. -/
theorem c2_unmatched_not_persisted :
    (importFromEvents c2Events []).matched = [] ∧
    (importFromEvents c2Events []).unmatched ≠ [] ∧
    performSyncImportPhase noFailEnv c2Events [] c2DB = c2DB ∧
    (storeUnmatchedEvents noFailEnv (importFromEvents c2Events []).unmatched 0
        ⟨[], []⟩ c2DB).2.unmatchedEvents ≠ [] := by
  exact ⟨by decide, by decide, by decide, by decide⟩

/-! ### C3: what reaches the sync log -/

/-- The log delta of a `createMealsFromEvents` run is one `from_google`
success row per created meal — and nothing else. -/
theorem createMeals_log (env : Env) :
    ∀ (matched : List MatchedEvent) (i : Nat) (acc : CreateResults) (db : DB),
      ∃ delta : List (MealEvent × Recipe × Meal),
        (createMealsFromEvents env matched i acc db).1.created = acc.created ++ delta ∧
        (createMealsFromEvents env matched i acc db).2.syncLog =
          db.syncLog ++ delta.map (fun x =>
            ⟨x.1.eventId, some x.2.2.id, "from_google", "success", none, false⟩) := by
  intro matched
  induction matched with
  | nil => intro i acc db; exact ⟨[], by simp [createMealsFromEvents], by simp [createMealsFromEvents]⟩
  | cons me rest ih =>
    intro i acc db
    rw [createMealsFromEvents]
    by_cases hc : env.failCheck i
    · rw [if_pos hc]
      exact ih (i + 1) _ db
    · rw [if_neg hc]
      by_cases hs : slotTaken db me.event.date me.event.mealType
      · rw [if_pos hs]
        exact ih (i + 1) _ db
      · rw [if_neg hs]
        by_cases hcr : env.failCreate i
        · rw [if_pos hcr]
          exact ih (i + 1) _ db
        · rw [if_neg hcr]
          obtain ⟨d, h1, h2⟩ := ih (i + 1)
            { acc with created := acc.created ++
                [(me.event, me.recipe, (insertImportedMeal db me.event me.recipe).1)] }
            (logSyncOperation (insertImportedMeal db me.event me.recipe).2
              me.event.eventId (some (insertImportedMeal db me.event me.recipe).1.id)
              "from_google" "success" none false)
          refine ⟨(me.event, me.recipe, (insertImportedMeal db me.event me.recipe).1) :: d,
            ?_, ?_⟩
          · rw [h1]; simp
          · rw [h2]; simp [logSyncOperation, insertImportedMeal]

/-- C3 (amended): `createMealsFromEvents` appends to the Sync Log exactly
one `from_google`/`success` row per **created** meal; duplicate-guard skips
(and failed items) are returned in `skipped`/`failed` but append nothing to
the log. -/
theorem c3_sync_log_amended (env : Env) (matched : List MatchedEvent) (db : DB) :
    (createMealsFromEvents env matched 0 ⟨[], [], []⟩ db).2.syncLog =
      db.syncLog ++
        ((createMealsFromEvents env matched 0 ⟨[], [], []⟩ db).1.created.map (fun x =>
          ⟨x.1.eventId, some x.2.2.id, "from_google", "success", none, false⟩)) := by
  obtain ⟨d, h1, h2⟩ := createMeals_log env matched 0 ⟨[], [], []⟩ db
  rw [h1, h2]
  simp

def c3Event : MealEvent := ⟨"ev2", "Lunch", "Pizza", false, "2025-11-12", "Lunch: Pizza"⟩

def c3DB : DB :=
  ⟨[⟨1, "2025-11-12", "Lunch", 7, ["Kit", "Jess"], none, none, none⟩], [], [], 2, 50⟩

/-- C3 counterexample: an event hitting the duplicate-slot guard is
recorded in `skipped` but **no** Sync Log row is appended — the claim's
"skips are logged with direction FromRemote" fails. -/
theorem c3_skip_not_logged :
    (createMealsFromEvents noFailEnv [⟨c3Event, ⟨7, "Pizza"⟩, 1, "exact", none⟩] 0
        ⟨[], [], []⟩ c3DB).1.skipped.length = 1 ∧
    (createMealsFromEvents noFailEnv [⟨c3Event, ⟨7, "Pizza"⟩, 1, "exact", none⟩] 0
        ⟨[], [], []⟩ c3DB).2.syncLog = [] := by
  exact ⟨by decide, by decide⟩

/-! ### C1: the slot invariant across the sync operations -/

theorem slotInvariant_insert {db : DB} {e : MealEvent} {r : Recipe}
    (hinv : slotInvariant db) (hfree : slotTaken db e.date e.mealType = false) :
    slotInvariant (insertImportedMeal db e r).2 := by
  unfold slotInvariant insertImportedMeal
  rw [List.pairwise_append]
  refine ⟨hinv, by simp, ?_⟩
  intro a ha b hb
  simp only [List.mem_singleton] at hb
  subst hb
  intro hcon
  have hnil : db.meals.filter
      (fun m => decide (m.date = e.date ∧ m.mealType = e.mealType)) = [] := by
    rw [slotTaken, Bool.not_eq_false', List.isEmpty_iff] at hfree
    exact hfree
  have hnot := List.filter_eq_nil_iff.mp hnil a ha
  rw [decide_eq_true_eq] at hnot
  exact hnot ⟨hcon.1, hcon.2⟩

/-- `createMealsFromEvents` preserves the at-most-one-Meal-per-slot
invariant: a meal is only inserted after the slot check came back empty. -/
theorem createMeals_slotInvariant (env : Env) :
    ∀ (matched : List MatchedEvent) (i : Nat) (acc : CreateResults) (db : DB),
      slotInvariant db → slotInvariant (createMealsFromEvents env matched i acc db).2 := by
  intro matched
  induction matched with
  | nil => intro i acc db h; exact h
  | cons me rest ih =>
    intro i acc db h
    rw [createMealsFromEvents]
    by_cases hc : env.failCheck i
    · rw [if_pos hc]; exact ih (i + 1) _ db h
    · rw [if_neg hc]
      by_cases hs : slotTaken db me.event.date me.event.mealType
      · rw [if_pos hs]; exact ih (i + 1) _ db h
      · rw [if_neg hs]
        by_cases hcr : env.failCreate i
        · rw [if_pos hcr]; exact ih (i + 1) _ db h
        · rw [if_neg hcr]
          refine ih (i + 1) _ _ ?_
          have h2 := @slotInvariant_insert db me.event me.recipe h
            (Bool.not_eq_true _ ▸ hs)
          exact h2

/-- `storeUnmatchedEvents` never touches the `meals` table. -/
theorem storeUnmatched_meals (env : Env) :
    ∀ (evs : List MealEvent) (i : Nat) (acc : StoreResults) (db : DB),
      (storeUnmatchedEvents env evs i acc db).2.meals = db.meals := by
  intro evs
  induction evs with
  | nil => intro i acc db; rfl
  | cons e rest ih =>
    intro i acc db
    rw [storeUnmatchedEvents]
    cases hf : findUnmatched db e.eventId with
    | some u => exact ih (i + 1) _ db
    | none =>
      by_cases hs : env.failStore i
      · rw [if_pos hs]; exact ih (i + 1) _ db
      · rw [if_neg hs]; exact ih (i + 1) _ _

/-- C1 (amended): the import path preserves the slot invariant —
`createMealsFromEvents` guards every insert with the existing-meal check
and `storeUnmatchedEvents` never writes a Meal — but
`resolveUnmatchedEvent` applies **no** duplicate guard and **no** status
check: whenever the row lookup succeeds, whatever the row's status, it
unconditionally appends a new Meal for the row's `(date, mealType)` slot
carrying the row's `externalEventId`. -/
theorem c1_slot_invariant_amended :
    (∀ (env : Env) (matched : List MatchedEvent) (i : Nat) (acc : CreateResults) (db : DB),
      slotInvariant db → slotInvariant (createMealsFromEvents env matched i acc db).2) ∧
    (∀ (env : Env) (evs : List MealEvent) (i : Nat) (acc : StoreResults) (db : DB),
      (storeUnmatchedEvents env evs i acc db).2.meals = db.meals) ∧
    (∀ (db : DB) (uid rid : Nat) (u : UnmatchedRow),
      db.unmatchedEvents.find? (fun v => v.id = uid) = some u →
      ∃ m db2, resolveUnmatchedEvent db uid rid = .ok (m, u, db2) ∧
        db2.meals = db.meals ++ [m] ∧ m.date = u.eventDate ∧
        m.mealType = u.mealType ∧ m.calendarEventId = some u.eventId) := by
  refine ⟨createMeals_slotInvariant, storeUnmatched_meals, ?_⟩
  intro db uid rid u h
  rw [resolveUnmatchedEvent, h]
  exact ⟨_, _, rfl, rfl, rfl, rfl, rfl⟩

def c1Meal : Meal :=
  ⟨10, "2025-11-11", "Lunch", 5, ["Kit", "Jess"], some "ev1", some "google_calendar", some 100⟩

def c1Row : UnmatchedRow :=
  ⟨1, "ev1", "Lunch: Mystery Stew", "2025-11-11", "Lunch", "Mystery Stew", "matched",
    some 100, some 5, none⟩

def c1DB : DB := ⟨[c1Meal], [c1Row], [], 11, 200⟩

def c1ResolveResult : DB :=
  match resolveUnmatchedEvent c1DB 1 5 with
  | .ok x => x.2.2
  | .error _ => c1DB

/-- C1 counterexample: a second resolution attempt on an already-`matched`
`UnmatchedEvent` (its Meal for the slot already exists and is linked to the
same `externalEventId`) succeeds and creates a second Meal for the same
slot, breaking the invariant. -/
theorem c1_second_resolution_counterexample :
    slotInvariant c1DB ∧
    c1DB.unmatchedEvents.map UnmatchedRow.status = ["matched"] ∧
    (resolveUnmatchedEvent c1DB 1 5).toOption.isSome = true ∧
    c1ResolveResult.meals.length = 2 ∧
    ¬slotInvariant c1ResolveResult := by
  exact ⟨by decide, by decide, by decide, by decide, by decide⟩

def c1WitnessDB : DB :=
  ⟨[⟨3, "2025-11-14", "Dinner", 9, ["Kit"], none, none, none⟩], [], [], 4, 60⟩

def c1WitnessMatched : MatchedEvent :=
  ⟨⟨"ev3", "Dinner", "Stew", false, "2025-11-15", "Dinner: Stew"⟩, ⟨9, "Stew"⟩, 1, "exact", none⟩

/-- C1 witness: the preservation conjunct applied at a concrete store whose
invariant is checked by evaluation. -/
theorem c1_slot_invariant_witness :
    slotInvariant c1WitnessDB ∧
    slotInvariant (createMealsFromEvents noFailEnv [c1WitnessMatched] 0
      ⟨[], [], []⟩ c1WitnessDB).2 :=
  ⟨by decide,
   c1_slot_invariant_amended.1 noFailEnv [c1WitnessMatched] 0
     ⟨[], [], []⟩ c1WitnessDB (by decide)⟩

/-! ### C9: partial-failure containment in `createMealsFromEvents` -/

/-- Appending one meal that fills a different slot keeps a free slot free. -/
theorem slotTaken_free_append {db db2 : DB} {m : Meal}
    (hm : db2.meals = db.meals ++ [m]) {d mt : String}
    (h : slotTaken db d mt = false) (hne : ¬(m.date = d ∧ m.mealType = mt)) :
    slotTaken db2 d mt = false := by
  rw [slotTaken, Bool.not_eq_false', List.isEmpty_iff] at h ⊢
  rw [hm, List.filter_append, h, List.nil_append]
  simp [hne]

/-- Extending the meals table keeps a taken slot taken. -/
theorem slotTaken_taken_ext {db db2 : DB} {ext : List Meal}
    (hm : db2.meals = db.meals ++ ext) {d mt : String}
    (h : slotTaken db d mt = true) : slotTaken db2 d mt = true := by
  by_contra hc
  rw [Bool.not_eq_true] at hc
  rw [slotTaken, Bool.not_eq_false', List.isEmpty_iff, hm, List.filter_append,
    List.append_eq_nil] at hc
  have hfree : slotTaken db d mt = false := by
    rw [slotTaken, Bool.not_eq_false', List.isEmpty_iff]
    exact hc.1
  rw [h] at hfree
  exact Bool.noConfusion hfree

/-- Every matched event lands in exactly one of `created`, `failed`,
`skipped`: no item-level outcome aborts the loop. -/
theorem createMeals_partition (env : Env) :
    ∀ (matched : List MatchedEvent) (i : Nat) (acc : CreateResults) (db : DB),
      (createMealsFromEvents env matched i acc db).1.created.length +
        (createMealsFromEvents env matched i acc db).1.failed.length +
        (createMealsFromEvents env matched i acc db).1.skipped.length =
      acc.created.length + acc.failed.length + acc.skipped.length + matched.length := by
  intro matched
  induction matched with
  | nil => intro i acc db; simp [createMealsFromEvents]
  | cons me rest ih =>
    intro i acc db
    rw [createMealsFromEvents]
    by_cases hc : env.failCheck i
    · rw [if_pos hc, ih]
      simp
      omega
    · rw [if_neg hc]
      by_cases hs : slotTaken db me.event.date me.event.mealType
      · rw [if_pos hs, ih]
        simp
        omega
      · rw [if_neg hs]
        by_cases hcr : env.failCreate i
        · rw [if_pos hcr, ih]
          simp
          omega
        · rw [if_neg hcr, ih]
          simp
          omega

/-- The datastore failure pattern of the C9 scenario: meal creation fails
for exactly the second item. -/
def failSecondEnv : Env := ⟨fun _ => false, fun i => i == 1, fun _ => false⟩

/-- C9: item-level failures in `createMealsFromEvents` are contained — the
counts always partition the input list (no outcome aborts the loop), and in
a 3-event run over free, pairwise-distinct slots where creation fails for
exactly the second event, the first and third events are created, the
second is reported in `failed`, and nothing is skipped: the third event is
attempted rather than dropped. -/
theorem c9_partial_failure (m1 m2 m3 : MatchedEvent) (db : DB)
    (h1 : slotTaken db m1.event.date m1.event.mealType = false)
    (h2 : slotTaken db m2.event.date m2.event.mealType = false)
    (h3 : slotTaken db m3.event.date m3.event.mealType = false)
    (h21 : ¬(m1.event.date = m2.event.date ∧ m1.event.mealType = m2.event.mealType))
    (h31 : ¬(m1.event.date = m3.event.date ∧ m1.event.mealType = m3.event.mealType)) :
    (∀ (env : Env) (matched : List MatchedEvent) (i : Nat) (acc : CreateResults) (db0 : DB),
      (createMealsFromEvents env matched i acc db0).1.created.length +
        (createMealsFromEvents env matched i acc db0).1.failed.length +
        (createMealsFromEvents env matched i acc db0).1.skipped.length =
      acc.created.length + acc.failed.length + acc.skipped.length + matched.length) ∧
    (createMealsFromEvents failSecondEnv [m1, m2, m3] 0 ⟨[], [], []⟩ db).1.created.map
        (fun x => x.1) = [m1.event, m3.event] ∧
    (createMealsFromEvents failSecondEnv [m1, m2, m3] 0 ⟨[], [], []⟩ db).1.failed =
      [(m2.event, m2.recipe, "Failed to create meal")] ∧
    (createMealsFromEvents failSecondEnv [m1, m2, m3] 0 ⟨[], [], []⟩ db).1.skipped = [] := by
  refine ⟨createMeals_partition, ?_⟩
  rw [createMealsFromEvents, if_neg (by decide : ¬(failSecondEnv.failCheck 0 = true)),
    if_neg (by simp [h1]), if_neg (by decide : ¬(failSecondEnv.failCreate 0 = true))]
  set dbA := logSyncOperation (insertImportedMeal db m1.event m1.recipe).2
      m1.event.eventId (some (insertImportedMeal db m1.event m1.recipe).1.id)
      "from_google" "success" none false with hdbA
  have hmA : dbA.meals = db.meals ++ [(insertImportedMeal db m1.event m1.recipe).1] := by
    rw [hdbA]
    rfl
  have hE : slotTaken dbA m2.event.date m2.event.mealType = false :=
    slotTaken_free_append hmA h2 h21
  have hH : slotTaken dbA m3.event.date m3.event.mealType = false :=
    slotTaken_free_append hmA h3 h31
  rw [createMealsFromEvents, if_neg (by decide : ¬(failSecondEnv.failCheck 1 = true)),
    if_neg (by simp [hE]), if_pos (by decide : failSecondEnv.failCreate 1 = true)]
  rw [createMealsFromEvents, if_neg (by decide : ¬(failSecondEnv.failCheck 2 = true)),
    if_neg (by simp [hH]), if_neg (by decide : ¬(failSecondEnv.failCreate 2 = true))]
  rw [createMealsFromEvents]
  simp

/-! ### C5: round-trip idempotence of the import path -/

theorem slotTaken_eq_of_meals {db db2 : DB} (h : db2.meals = db.meals)
    (d mt : String) : slotTaken db2 d mt = slotTaken db d mt := by
  rw [slotTaken, slotTaken, h]

/-- The slot of the meal just appended is taken. -/
theorem slotTaken_of_append_self {db db2 : DB} {m : Meal}
    (hm : db2.meals = db.meals ++ [m]) : slotTaken db2 m.date m.mealType = true := by
  rw [slotTaken, hm, List.filter_append]
  simp

/-- `createMealsFromEvents` only ever appends to the meals table. -/
theorem createMeals_meals_ext (env : Env) :
    ∀ (matched : List MatchedEvent) (i : Nat) (acc : CreateResults) (db : DB),
      ∃ ext, (createMealsFromEvents env matched i acc db).2.meals = db.meals ++ ext := by
  intro matched
  induction matched with
  | nil => intro i acc db; exact ⟨[], by simp [createMealsFromEvents]⟩
  | cons me rest ih =>
    intro i acc db
    rw [createMealsFromEvents]
    by_cases hc : env.failCheck i
    · rw [if_pos hc]; exact ih (i + 1) _ db
    · rw [if_neg hc]
      by_cases hs : slotTaken db me.event.date me.event.mealType
      · rw [if_pos hs]; exact ih (i + 1) _ db
      · rw [if_neg hs]
        by_cases hcr : env.failCreate i
        · rw [if_pos hcr]; exact ih (i + 1) _ db
        · rw [if_neg hcr]
          obtain ⟨ext, hext⟩ := ih (i + 1)
            { acc with created := acc.created ++
                [(me.event, me.recipe, (insertImportedMeal db me.event me.recipe).1)] }
            (logSyncOperation (insertImportedMeal db me.event me.recipe).2
              me.event.eventId (some (insertImportedMeal db me.event me.recipe).1.id)
              "from_google" "success" none false)
          refine ⟨(insertImportedMeal db me.event me.recipe).1 :: ext, ?_⟩
          rw [hext]
          simp [logSyncOperation, insertImportedMeal]

/-- After a failure-free `createMealsFromEvents` run, the slot of every
input event is taken: either it was already, or the run filled it. -/
theorem createMeals_cover :
    ∀ (matched : List MatchedEvent) (i : Nat) (acc : CreateResults) (db : DB),
      ∀ me ∈ matched,
        slotTaken (createMealsFromEvents noFailEnv matched i acc db).2
          me.event.date me.event.mealType = true := by
  intro matched
  induction matched with
  | nil => intro i acc db me hme; exact absurd hme (List.not_mem_nil me)
  | cons m0 rest ih =>
    intro i acc db me hme
    rw [createMealsFromEvents, if_neg (by simp [noFailEnv])]
    by_cases hs : slotTaken db m0.event.date m0.event.mealType
    · rw [if_pos hs]
      rcases List.mem_cons.mp hme with rfl | hr
      · obtain ⟨ext, hext⟩ := createMeals_meals_ext noFailEnv rest (i + 1)
          { acc with skipped := acc.skipped ++
              [(me.event, me.recipe, "Meal already exists for this date and meal type")] } db
        exact slotTaken_taken_ext hext hs
      · exact ih (i + 1) _ db me hr
    · rw [if_neg hs, if_neg (by simp [noFailEnv])]
      rcases List.mem_cons.mp hme with rfl | hr
      · obtain ⟨ext, hext⟩ := createMeals_meals_ext noFailEnv rest (i + 1)
          { acc with created := acc.created ++
              [(me.event, me.recipe, (insertImportedMeal db me.event me.recipe).1)] }
          (logSyncOperation (insertImportedMeal db me.event me.recipe).2
            me.event.eventId (some (insertImportedMeal db me.event me.recipe).1.id)
            "from_google" "success" none false)
        have hbase : slotTaken (logSyncOperation (insertImportedMeal db me.event me.recipe).2
            me.event.eventId (some (insertImportedMeal db me.event me.recipe).1.id)
            "from_google" "success" none false) me.event.date me.event.mealType = true :=
          @slotTaken_of_append_self db _ (insertImportedMeal db me.event me.recipe).1 rfl
        exact slotTaken_taken_ext hext hbase
      · exact ih (i + 1) _ _ me hr

/-- When every input slot is already taken, `createMealsFromEvents` skips
everything and leaves the store untouched. -/
theorem createMeals_skip_all :
    ∀ (matched : List MatchedEvent) (i : Nat) (acc : CreateResults) (db : DB),
      (∀ me ∈ matched, slotTaken db me.event.date me.event.mealType = true) →
      createMealsFromEvents noFailEnv matched i acc db =
        ({ acc with skipped := (acc.skipped ++ matched.map
            (fun me => (me.event, me.recipe,
              "Meal already exists for this date and meal type"))) }, db) := by
  intro matched
  induction matched with
  | nil =>
    intro i acc db h
    simp [createMealsFromEvents]
  | cons m0 rest ih =>
    intro i acc db h
    rw [createMealsFromEvents, if_neg (by simp [noFailEnv]),
      if_pos (h m0 (List.mem_cons_self m0 rest))]
    rw [ih (i + 1) _ db (fun me hme => h me (List.mem_cons_of_mem m0 hme))]
    simp

/-- `storeUnmatchedEvents` only ever appends to the unmatched-event store. -/
theorem storeUnmatched_unmatched_ext (env : Env) :
    ∀ (evs : List MealEvent) (i : Nat) (acc : StoreResults) (db : DB),
      ∃ ext, (storeUnmatchedEvents env evs i acc db).2.unmatchedEvents =
        db.unmatchedEvents ++ ext := by
  intro evs
  induction evs with
  | nil => intro i acc db; exact ⟨[], by simp [storeUnmatchedEvents]⟩
  | cons e0 rest ih =>
    intro i acc db
    rw [storeUnmatchedEvents]
    cases hf : findUnmatched db e0.eventId with
    | some u => exact ih (i + 1) _ db
    | none =>
      by_cases hst : env.failStore i
      · rw [if_pos hst]; exact ih (i + 1) _ db
      · rw [if_neg hst]
        obtain ⟨ext, hext⟩ := ih (i + 1)
          { acc with stored := acc.stored ++ [(e0, ⟨db.nextId, e0.eventId, e0.originalTitle,
              e0.date, e0.mealType, e0.recipeName, "pending", none, none, none⟩, false)] }
          { db with unmatchedEvents := db.unmatchedEvents ++ [⟨db.nextId, e0.eventId,
              e0.originalTitle, e0.date, e0.mealType, e0.recipeName, "pending", none,
              none, none⟩], nextId := db.nextId + 1 }
        refine ⟨⟨db.nextId, e0.eventId, e0.originalTitle, e0.date, e0.mealType,
          e0.recipeName, "pending", none, none, none⟩ :: ext, ?_⟩
        rw [hext]
        simp

/-- A found unmatched row stays found when the store is extended. -/
theorem findUnmatched_ext {db db2 : DB} {ext : List UnmatchedRow}
    (hm : db2.unmatchedEvents = db.unmatchedEvents ++ ext) {eid : String}
    (h : (findUnmatched db eid).isSome = true) :
    (findUnmatched db2 eid).isSome = true := by
  obtain ⟨u, hu⟩ := Option.isSome_iff_exists.mp h
  rw [findUnmatched] at hu ⊢
  rw [hm, List.find?_append, hu]
  rfl

/-- After a failure-free `storeUnmatchedEvents` run, every input event's
`externalEventId` has a row in the store. -/
theorem storeUnmatched_covers :
    ∀ (evs : List MealEvent) (i : Nat) (acc : StoreResults) (db : DB),
      ∀ e ∈ evs, (findUnmatched
        (storeUnmatchedEvents noFailEnv evs i acc db).2 e.eventId).isSome = true := by
  intro evs
  induction evs with
  | nil => intro i acc db e he; exact absurd he (List.not_mem_nil e)
  | cons e0 rest ih =>
    intro i acc db e he
    rw [storeUnmatchedEvents]
    cases hf : findUnmatched db e0.eventId with
    | some u =>
      rcases List.mem_cons.mp he with rfl | hr
      · obtain ⟨ext, hext⟩ := storeUnmatched_unmatched_ext noFailEnv rest (i + 1)
          { acc with stored := acc.stored ++ [(e, u, true)] } db
        exact findUnmatched_ext hext (by rw [hf]; rfl)
      · exact ih (i + 1) _ db e hr
    | none =>
      rw [if_neg (by simp [noFailEnv])]
      rcases List.mem_cons.mp he with rfl | hr
      · obtain ⟨ext, hext⟩ := storeUnmatched_unmatched_ext noFailEnv rest (i + 1)
          { acc with stored := acc.stored ++ [(e, ⟨db.nextId, e.eventId, e.originalTitle,
              e.date, e.mealType, e.recipeName, "pending", none, none, none⟩, false)] }
          { db with unmatchedEvents := db.unmatchedEvents ++ [⟨db.nextId, e.eventId,
              e.originalTitle, e.date, e.mealType, e.recipeName, "pending", none,
              none, none⟩], nextId := db.nextId + 1 }
        apply findUnmatched_ext hext
        rw [findUnmatched] at hf ⊢
        simp [List.find?_append, hf]
      · exact ih (i + 1) _ _ e hr

/-- When every input event's id already has a row, `storeUnmatchedEvents`
reports each as `alreadyExists` and changes nothing. -/
theorem storeUnmatched_found_all :
    ∀ (evs : List MealEvent) (i : Nat) (acc : StoreResults) (db : DB),
      (∀ e ∈ evs, (findUnmatched db e.eventId).isSome = true) →
      ∃ rows, storeUnmatchedEvents noFailEnv evs i acc db =
          ({ acc with stored := acc.stored ++ rows }, db) ∧
        rows.map (fun x => x.1) = evs ∧ ∀ x ∈ rows, x.2.2 = true := by
  intro evs
  induction evs with
  | nil =>
    intro i acc db h
    exact ⟨[], by simp [storeUnmatchedEvents], by simp, by simp⟩
  | cons e0 rest ih =>
    intro i acc db h
    obtain ⟨u, hu⟩ := Option.isSome_iff_exists.mp (h e0 (List.mem_cons_self e0 rest))
    obtain ⟨rows, hr1, hr2, hr3⟩ := ih (i + 1)
      { acc with stored := acc.stored ++ [(e0, u, true)] } db
      (fun e he => h e (List.mem_cons_of_mem e0 he))
    refine ⟨(e0, u, true) :: rows, ?_, ?_, ?_⟩
    · rw [storeUnmatchedEvents]
      simp only [hu]
      rw [hr1]
      simp
    · simp [hr2]
    · intro x hx
      rcases List.mem_cons.mp hx with rfl | hx'
      · rfl
      · exact hr3 x hx'

/-- C5: running the import path a second time over the same remote snapshot
is a no-op — the store is unchanged, no Meal is created (every matched
event is skipped by the slot-duplicate guard), no unmatched row is written
(every unmatched event's id is found and reported `alreadyExists`, the
existing row untouched). -/
theorem c5_import_idempotent (events : List GEvent) (recipes : List Recipe) (db : DB) :
    (importCycle events recipes (importCycle events recipes db).2).2 =
      (importCycle events recipes db).2 ∧
    (importCycle events recipes (importCycle events recipes db).2).1.1.created = [] ∧
    (importCycle events recipes (importCycle events recipes db).2).1.1.failed = [] ∧
    (importCycle events recipes (importCycle events recipes db).2).1.1.skipped =
      (importFromEvents events recipes).matched.map
        (fun me => (me.event, me.recipe,
          "Meal already exists for this date and meal type")) ∧
    (importCycle events recipes (importCycle events recipes db).2).1.2.failed = [] ∧
    (importCycle events recipes (importCycle events recipes db).2).1.2.stored.map
      (fun x => x.1) = (importFromEvents events recipes).unmatched ∧
    ∀ x ∈ (importCycle events recipes (importCycle events recipes db).2).1.2.stored,
      x.2.2 = true := by
  set D := (importCycle events recipes db).2 with hD
  have hslots : ∀ me ∈ (importFromEvents events recipes).matched,
      slotTaken D me.event.date me.event.mealType = true := by
    intro me hme
    rw [hD]
    have h1 := createMeals_cover (importFromEvents events recipes).matched 0
      ⟨[], [], []⟩ db me hme
    have h2 : (importCycle events recipes db).2.meals =
        (createMealsFromEvents noFailEnv (importFromEvents events recipes).matched 0
          ⟨[], [], []⟩ db).2.meals :=
      storeUnmatched_meals noFailEnv (importFromEvents events recipes).unmatched 0 ⟨[], []⟩
        (createMealsFromEvents noFailEnv (importFromEvents events recipes).matched 0
          ⟨[], [], []⟩ db).2
    rw [slotTaken_eq_of_meals h2]
    exact h1
  have hcov : ∀ e ∈ (importFromEvents events recipes).unmatched,
      (findUnmatched D e.eventId).isSome = true := by
    intro e he
    rw [hD]
    exact storeUnmatched_covers (importFromEvents events recipes).unmatched 0 ⟨[], []⟩
      (createMealsFromEvents noFailEnv (importFromEvents events recipes).matched 0
        ⟨[], [], []⟩ db).2 e he
  have hskip := createMeals_skip_all (importFromEvents events recipes).matched 0
    ⟨[], [], []⟩ D hslots
  obtain ⟨rows, hr1, hr2, hr3⟩ := storeUnmatched_found_all
    (importFromEvents events recipes).unmatched 0 ⟨[], []⟩ D hcov
  have hrun : importCycle events recipes D =
      ((⟨[], [], (importFromEvents events recipes).matched.map
          (fun me => (me.event, me.recipe,
            "Meal already exists for this date and meal type"))⟩,
        ⟨rows, []⟩), D) := by
    simp [importCycle, hskip, hr1]
  rw [hrun]
  exact ⟨rfl, rfl, rfl, rfl, rfl, hr2, hr3⟩

def c9m1 : MatchedEvent :=
  ⟨⟨"e1", "Lunch", "Pizza", false, "2025-11-10", "Lunch: Pizza"⟩, ⟨1, "Pizza"⟩, 1, "exact", none⟩

def c9m2 : MatchedEvent :=
  ⟨⟨"e2", "Dinner", "Stew", false, "2025-11-10", "Dinner: Stew"⟩, ⟨2, "Stew"⟩, 1, "exact", none⟩

def c9m3 : MatchedEvent :=
  ⟨⟨"e3", "Lunch", "Curry", false, "2025-11-11", "Lunch: Curry"⟩, ⟨3, "Curry"⟩, 1, "exact", none⟩

/-- C9 witness: the scenario instantiated over an empty store with three
concrete matched events. -/
theorem c9_partial_failure_witness :
    (createMealsFromEvents failSecondEnv [c9m1, c9m2, c9m3] 0 ⟨[], [], []⟩
        ⟨[], [], [], 0, 0⟩).1.created.map (fun x => x.1) = [c9m1.event, c9m3.event] ∧
    (createMealsFromEvents failSecondEnv [c9m1, c9m2, c9m3] 0 ⟨[], [], []⟩
        ⟨[], [], [], 0, 0⟩).1.failed = [(c9m2.event, c9m2.recipe, "Failed to create meal")] :=
  ⟨(c9_partial_failure c9m1 c9m2 c9m3 ⟨[], [], [], 0, 0⟩ (by decide) (by decide)
      (by decide) (by decide) (by decide)).2.1,
   (c9_partial_failure c9m1 c9m2 c9m3 ⟨[], [], [], 0, 0⟩ (by decide) (by decide)
      (by decide) (by decide) (by decide)).2.2.1⟩

/-! ### C4: the export direction -/

/-- Membership characterization of the export candidate query. -/
theorem exportCandidates_mem (db : DB) (s e : String) (m : Meal) :
    m ∈ exportCandidates db s e ↔
      (m ∈ db.meals ∧ s.toList ≤ m.date.toList ∧ m.date.toList ≤ e.toList ∧
        m.calendarEventId = none) := by
  simp [exportCandidates, List.mem_filter, and_assoc]

/-- What the export write-back may change about a meal row: every field is
preserved — including `lastSyncedAt` — except that `calendarEventId` may be
set to a fresh remote id. -/
def sameButLink (m2 m : Meal) : Prop :=
  m2.id = m.id ∧ m2.date = m.date ∧ m2.mealType = m.mealType ∧
  m2.recipeId = m.recipeId ∧ m2.people = m.people ∧ m2.syncSource = m.syncSource ∧
  m2.lastSyncedAt = m.lastSyncedAt ∧
  (m2.calendarEventId = m.calendarEventId ∨ ∃ eid, m2.calendarEventId = some eid)

theorem sameButLink_refl (m : Meal) : sameButLink m m :=
  ⟨rfl, rfl, rfl, rfl, rfl, rfl, rfl, Or.inl rfl⟩

theorem sameButLink_trans {a b c : Meal}
    (h1 : sameButLink a b) (h2 : sameButLink b c) : sameButLink a c := by
  obtain ⟨i1, d1, t1, r1, p1, s1, l1, c1⟩ := h1
  obtain ⟨i2, d2, t2, r2, p2, s2, l2, c2⟩ := h2
  refine ⟨i1.trans i2, d1.trans d2, t1.trans t2, r1.trans r2, p1.trans p2,
    s1.trans s2, l1.trans l2, ?_⟩
  rcases c1 with c1 | ⟨eid, he⟩
  · rcases c2 with c2 | ⟨eid, he⟩
    · exact Or.inl (c1.trans c2)
    · exact Or.inr ⟨eid, c1.trans he⟩
  · exact Or.inr ⟨eid, he⟩

theorem updateMeal_shape (db : DB) (mid : Nat) (eid : String) :
    ∀ m2 ∈ (updateMealEventId db mid eid).meals, ∃ m ∈ db.meals, sameButLink m2 m := by
  intro m2 hm2
  obtain ⟨m, hm, hfm⟩ := List.mem_map.mp hm2
  subst hfm
  refine ⟨m, hm, ?_⟩
  by_cases h : m.id = mid
  · simp [sameButLink, h]
  · simp [sameButLink, h]

/-- Every meal row after the export loop is one of the original rows with at
most a freshly linked `calendarEventId`. -/
theorem exportLoop_shape (renv : RemoteEnv) (recipes : List Recipe) :
    ∀ (ms : List Meal) (i exported failed : Nat) (db : DB),
      ∀ m2 ∈ (exportLoop renv recipes ms i exported failed db).2.meals,
        ∃ m ∈ db.meals, sameButLink m2 m := by
  intro ms
  induction ms with
  | nil => intro i e f db m2 hm2; exact ⟨m2, hm2, sameButLink_refl m2⟩
  | cons m0 rest ih =>
    intro i e f db m2 hm2
    rw [exportLoop] at hm2
    cases hfind : recipes.find? (fun r => r.id = m0.recipeId) with
    | none =>
      rw [hfind] at hm2
      exact ih (i + 1) e (f + 1) db m2 hm2
    | some r =>
      rw [hfind] at hm2
      cases hcr : renv.createResult i with
      | none =>
        rw [hcr] at hm2
        exact ih (i + 1) e (f + 1) db m2 hm2
      | some eid =>
        rw [hcr] at hm2
        obtain ⟨mMid, hmMid, hshape⟩ :=
          ih (i + 1) (e + 1) f (updateMealEventId db m0.id eid) m2 hm2
        obtain ⟨mOrig, hmOrig, hshape2⟩ := updateMeal_shape db m0.id eid mMid hmMid
        exact ⟨mOrig, hmOrig, sameButLink_trans hshape hshape2⟩

/-- A meal whose id differs from every loop item is untouched by the export
loop. -/
theorem exportLoop_untouched (renv : RemoteEnv) (recipes : List Recipe) :
    ∀ (ms : List Meal) (i exported failed : Nat) (db : DB) (m : Meal),
      m ∈ db.meals → (∀ m0 ∈ ms, ¬m0.id = m.id) →
      m ∈ (exportLoop renv recipes ms i exported failed db).2.meals := by
  intro ms
  induction ms with
  | nil => intro i e f db m hm _; exact hm
  | cons m0 rest ih =>
    intro i e f db m hm hids
    rw [exportLoop]
    cases hfind : recipes.find? (fun r => r.id = m0.recipeId) with
    | none =>
      exact ih (i + 1) e (f + 1) db m hm (fun x hx => hids x (List.mem_cons_of_mem m0 hx))
    | some r =>
      cases hcr : renv.createResult i with
      | none =>
        exact ih (i + 1) e (f + 1) db m hm (fun x hx => hids x (List.mem_cons_of_mem m0 hx))
      | some eid =>
        apply ih (i + 1) (e + 1) f (updateMealEventId db m0.id eid) m
        · have hno : ¬m.id = m0.id :=
            fun h => hids m0 (List.mem_cons_self m0 rest) h.symm
          exact List.mem_map.mpr ⟨m, hm, by simp [hno]⟩
        · exact fun x hx => hids x (List.mem_cons_of_mem m0 hx)

/-- Two distinct members of an id-distinct meal list have distinct ids. -/
theorem pairwise_distinct {l : List Meal} (h : l.Pairwise (fun a b => a.id ≠ b.id)) :
    ∀ {a b : Meal}, a ∈ l → b ∈ l → a ≠ b → b.id ≠ a.id := by
  induction l with
  | nil => intro a b ha; exact absurd ha (List.not_mem_nil a)
  | cons x xs ih =>
    intro a b ha hb hne
    rw [List.pairwise_cons] at h
    rcases List.mem_cons.mp ha with rfl | ha'
    · rcases List.mem_cons.mp hb with rfl | hb'
      · exact absurd rfl hne
      · exact fun he => h.1 b hb' he.symm
    · rcases List.mem_cons.mp hb with rfl | hb'
      · exact h.1 a ha'
      · exact ih h.2 ha' hb' hne

/-- C4 (amended): `exportUnsyncedMeals` considers exactly the in-range
meals with no `calendarEventId` (a linked meal is never a candidate and —
under distinct row ids — is returned unchanged), and the write-back of a
successful export sets **only** `calendarEventId` on the meal:
`lastSyncedAt` is not written, and every other field is preserved. -/
theorem c4_export_amended (renv : RemoteEnv) (recipes : List Recipe)
    (startDateStr endDateStr : String) (db : DB)
    (hids : db.meals.Pairwise (fun a b => a.id ≠ b.id)) :
    (∀ m : Meal, m ∈ exportCandidates db startDateStr endDateStr ↔
      (m ∈ db.meals ∧ startDateStr.toList ≤ m.date.toList ∧
        m.date.toList ≤ endDateStr.toList ∧ m.calendarEventId = none)) ∧
    (∀ m ∈ exportCandidates db startDateStr endDateStr, m.calendarEventId = none) ∧
    (∀ m2 ∈ (exportUnsyncedMeals renv recipes startDateStr endDateStr db).2.meals,
      ∃ m ∈ db.meals, sameButLink m2 m) ∧
    (∀ m ∈ db.meals, m.calendarEventId ≠ none →
      m ∈ (exportUnsyncedMeals renv recipes startDateStr endDateStr db).2.meals) := by
  refine ⟨fun m => exportCandidates_mem db startDateStr endDateStr m, ?_, ?_, ?_⟩
  · intro m hm
    exact ((exportCandidates_mem db startDateStr endDateStr m).mp hm).2.2.2
  · intro m2 hm2
    rw [exportUnsyncedMeals] at hm2
    by_cases he : (exportCandidates db startDateStr endDateStr).isEmpty
    · rw [if_pos he] at hm2
      exact ⟨m2, hm2, sameButLink_refl m2⟩
    · rw [if_neg he] at hm2
      exact exportLoop_shape renv recipes _ 0 0 0 db m2 hm2
  · intro m hm hlink
    rw [exportUnsyncedMeals]
    by_cases he : (exportCandidates db startDateStr endDateStr).isEmpty
    · rw [if_pos he]
      exact hm
    · rw [if_neg he]
      apply exportLoop_untouched renv recipes _ 0 0 0 db m hm
      intro m0 hm0
      have h0 := (exportCandidates_mem db startDateStr endDateStr m0).mp hm0
      have hne : m ≠ m0 := fun hEq => hlink (hEq ▸ h0.2.2.2)
      exact pairwise_distinct hids hm h0.1 hne

def c4Meal : Meal := ⟨1, "2025-11-12", "Dinner", 7, ["Kit"], none, none, none⟩

def c4DB : DB := ⟨[c4Meal], [], [], 2, 0⟩

def c4Renv : RemoteEnv := ⟨fun _ => some "gcal-1"⟩

/-- C4 counterexample: a successful export stores the remote id on the meal
but leaves `lastSyncedAt` at `none` — the claimed "together with
lastSyncedAt" write does not happen. -/
theorem c4_last_synced_not_written :
    (exportUnsyncedMeals c4Renv [⟨7, "Pasta"⟩] "2025-11-10" "2025-11-16" c4DB).2.meals =
      [⟨1, "2025-11-12", "Dinner", 7, ["Kit"], some "gcal-1", none, none⟩] ∧
    (exportUnsyncedMeals c4Renv [⟨7, "Pasta"⟩] "2025-11-10" "2025-11-16" c4DB).1 = (1, 0) := by
  exact ⟨by decide, by decide⟩

def c4WMealLinked : Meal :=
  ⟨5, "2025-11-12", "Lunch", 8, ["Jess"], some "gcal-9", none, some 10⟩

def c4WMealFree : Meal := ⟨6, "2025-11-13", "Dinner", 9, ["Kit"], none, none, none⟩

def c4WDB : DB := ⟨[c4WMealLinked, c4WMealFree], [], [], 7, 0⟩

/-- C4 witness: the amended theorem applied to a concrete two-meal store —
the already-linked meal survives the export run unchanged. -/
theorem c4_export_amended_witness :
    c4WDB.meals.Pairwise (fun a b => a.id ≠ b.id) ∧
    c4WMealLinked ∈ (exportUnsyncedMeals c4Renv [⟨9, "Stew"⟩] "2025-11-10" "2025-11-16"
      c4WDB).2.meals :=
  ⟨by decide,
   (c4_export_amended c4Renv [⟨9, "Stew"⟩] "2025-11-10" "2025-11-16" c4WDB
      (by decide)).2.2.2 c4WMealLinked (by decide) (by decide)⟩

end MealSync
